import Mathlib

/-!
Infix to postfix simulator: a shallow embedding of `simwindow.cpp`.

The development embeds the conversion engine (`SimWindow::generateSteps`), its
helpers (`isOperator`, `precedence`, `stackToString`) and the playback slots
(`startConversion`, `nextStep`, `displayStep`, `clearAll`) of the Qt window.

Modelling conventions
* `QString` is a list of characters, `QChar` is `Char` (text outside the Basic
  Multilingual Plane, which Qt stores as two surrogate code units, is read as
  one character each).
* `QStack<QChar>` is a list whose head is the top of the stack, so `push c st`
  is `c :: st` and `pop` removes the head.
* `QVector<SimStep>::append` adds at the end of a list.
* Qt leaves `QStack::pop` on an empty stack and `QVector::operator[]` outside
  the bounds undefined; the embedding returns `none` at such a point.
* `QChar::isLetterOrNumber` and `QChar::isSpace` are fixed by Qt for code
  points up to 127 and consult Qt's Unicode property tables above; the tables
  are a parameter (`QCharTables`).
-/

namespace Sim

/-- A `QString`, as its sequence of characters. -/
abbrev QString := List Char

/-- A `QStack<QChar>`; the head of the list is the top of the stack. -/
abbrev QStack := List Char

/-- Qt's Unicode property lookups, consulted only for code points above 127:
`letterOrNumber` stands for `QChar::isLetterOrNumber_helper`, `space` for
`QChar::isSpace_helper`. -/
structure QCharTables where
  letterOrNumber : Char → Bool
  space : Char → Bool

/-- The tables that classify no code point above 127; on ASCII text every
choice of tables behaves like this one. -/
def asciiTables : QCharTables := ⟨fun _ => false, fun _ => false⟩

/-- `QChar::isLetterOrNumber`: `A`-`Z`, `a`-`z`, `0`-`9`, and above 127 whatever
the Unicode table says. -/
def isLetterOrNumber (tbl : QCharTables) (c : Char) : Bool :=
  (decide (65 ≤ c.toNat) && decide (c.toNat ≤ 122)
      && (decide (97 ≤ c.toNat) || decide (c.toNat ≤ 90)))
    || (decide (48 ≤ c.toNat) && decide (c.toNat ≤ 57))
    || (decide (127 < c.toNat) && tbl.letterOrNumber c)

/-- `QChar::isSpace`: U+0020, U+0009..U+000D, and above 127 U+0085, U+00A0 and
whatever the Unicode table says. -/
def isSpace (tbl : QCharTables) (c : Char) : Bool :=
  decide (c.toNat = 32) || (decide (c.toNat ≤ 13) && decide (9 ≤ c.toNat))
    || (decide (127 < c.toNat)
        && (decide (c.toNat = 133) || decide (c.toNat = 160) || tbl.space c))

/-- `QString::trimmed`: the text without its leading and trailing whitespace. -/
def trimmed (tbl : QCharTables) (s : QString) : QString :=
  ((s.dropWhile (isSpace tbl)).reverse.dropWhile (isSpace tbl)).reverse

/-- `SimWindow::isOperator`. -/
def isOperator (c : Char) : Bool :=
  c == '+' || c == '-' || c == '*' || c == '/' || c == '^'

/-- `SimWindow::precedence`. -/
def precedence (c : Char) : Nat :=
  if c == '+' || c == '-' then 1
  else if c == '*' || c == '/' then 2
  else if c == '^' then 3
  else 0

/-- The loop `while(!st.isEmpty()) v.prepend(st.pop());` of `stackToString`:
every popped symbol is put in front of what `v` already holds. -/
def stackToString.prependAll : QStack → List Char → List Char
  | [], v => v
  | t :: rest, v => stackToString.prependAll rest (t :: v)

/-- The static helper `stackToString`. -/
def stackToString (st : QStack) : QString :=
  if st.isEmpty then "(empty)".toList
  else stackToString.prependAll st []

/-- The record `SimStep` of `simwindow.h`. -/
structure SimStep where
  current : QString
  stack : QString
  output : QString
  message : QString
  deriving DecidableEq, Repr

/-- The locals of `generateSteps` that change during a run: the member `steps`,
the output buffer `out` and the operator stack `st`. -/
structure GenState where
  steps : List SimStep
  out : QString
  st : QStack
  deriving DecidableEq, Repr

/-- The inner loop of the `')'` branch:
`while(!st.isEmpty() && st.top() != '(') { out += st.pop(); steps.append(...); }`. -/
def popUntilParen (steps : List SimStep) (out : QString) : QStack → GenState
  | [] => ⟨steps, out, []⟩
  | t :: rest =>
    if t != '(' then
      popUntilParen
        (steps ++ [⟨")".toList, stackToString rest, out ++ [t], "Popping until '('".toList⟩])
        (out ++ [t]) rest
    else ⟨steps, out, t :: rest⟩

/-- The inner loop of the operator branch:
`while(!st.isEmpty() && precedence(st.top()) >= precedence(c)) { ... }`. -/
def popPrecedence (c : Char) (steps : List SimStep) (out : QString) : QStack → GenState
  | [] => ⟨steps, out, []⟩
  | t :: rest =>
    if precedence t ≥ precedence c then
      popPrecedence c
        (steps ++ [⟨[c], stackToString rest, out ++ [t], "Popped due to precedence".toList⟩])
        (out ++ [t]) rest
    else ⟨steps, out, t :: rest⟩

/-- The loop after the scan: `while(!st.isEmpty()) { QChar t = st.pop(); ... }`. -/
def drain (steps : List SimStep) (out : QString) : QStack → GenState
  | [] => ⟨steps, out, []⟩
  | t :: rest =>
    let out1 := if t != '(' then out ++ [t] else out
    drain
      (steps ++ [⟨"END".toList, stackToString rest, out1,
        "Popped '".toList ++ [t] ++ "'".toList⟩])
      out1 rest

/-- One iteration of `for(QChar c : exp)`; `none` is the unguarded `st.pop()` of
the `')'` branch meeting an empty stack. -/
def processChar (tbl : QCharTables) (s : GenState) (c : Char) : Option GenState :=
  if isLetterOrNumber tbl c then
    some ⟨s.steps ++ [⟨[c], stackToString s.st, s.out ++ [c],
      "Operand → added to output".toList⟩], s.out ++ [c], s.st⟩
  else if c == '(' then
    some ⟨s.steps ++ [⟨[c], stackToString (c :: s.st), s.out, "'(' pushed".toList⟩],
      s.out, c :: s.st⟩
  else if c == ')' then
    match popUntilParen s.steps s.out s.st with
    | ⟨_, _, []⟩ => none
    | ⟨steps1, out1, _ :: rest⟩ =>
      some ⟨steps1 ++ [⟨")".toList, stackToString rest, out1, "Removed '('".toList⟩],
        out1, rest⟩
  else if isOperator c then
    match popPrecedence c s.steps s.out s.st with
    | ⟨steps1, out1, st1⟩ =>
      some ⟨steps1 ++ [⟨[c], stackToString (c :: st1), out1, "Operator pushed".toList⟩],
        out1, c :: st1⟩
  else some s

/-- The loop `for(QChar c : exp)` over the remaining characters. -/
def scan (tbl : QCharTables) : List Char → GenState → Option GenState
  | [], s => some s
  | c :: cs, s =>
    match processChar tbl s c with
    | none => none
    | some s1 => scan tbl cs s1

/-- The step appended before the scan. -/
def initialStep : SimStep :=
  ⟨"-".toList, "(empty)".toList, "(empty)".toList, "Starting conversion...".toList⟩

/-- `SimWindow::generateSteps`: the result holds the member `steps`, the text
handed to `finalPostfix->setText` (field `out`) and the stack at the end. -/
def generateSteps (tbl : QCharTables) (expr : QString) : Option GenState :=
  match scan tbl (expr.filter (fun c => c != ' ')) ⟨[initialStep], [], []⟩ with
  | none => none
  | some s => some (drain s.steps s.out s.st)

/-- The members of `SimWindow` that the slots read or write: the texts of the
line edits, the rows of `stackTable`, the items and current row of `inputList`
(`-1` when no row is current), whether `btnNext` is enabled, and the members
`steps` and `stepIndex`. -/
structure SimWindow where
  inputInfix : QString
  finalPostfix : QString
  curSymbol : QString
  stackStringView : QString
  outputSoFar : QString
  explanation : QString
  stackTable : List QString
  inputList : List QString
  inputListRow : Int
  btnNextEnabled : Bool
  steps : List SimStep
  stepIndex : Int
  deriving DecidableEq, Repr

/-- What a slot leaves behind: the text of the warning box it raised, if any,
and the window. -/
structure SlotResult where
  warning : Option QString
  window : SimWindow
  deriving DecidableEq, Repr

/-- `SimWindow::displayStep`; `none` is `steps[i]` outside the bounds. -/
def displayStep (w : SimWindow) (i : Int) : Option SimWindow :=
  if i < 0 then none
  else
    match w.steps[i.toNat]? with
    | none => none
    | some s =>
      let w1 := { w with
        curSymbol := s.current, stackStringView := s.stack,
        outputSoFar := s.output, explanation := s.message }
      let w2 := if i < (w1.inputList.length : Int) then { w1 with inputListRow := i } else w1
      if s.stack = "(empty)".toList then
        some { w2 with stackTable := ["EMPTY".toList] }
      else
        some { w2 with stackTable := s.stack.map (fun c => [c]) }

/-- `SimWindow::startConversion`, reading the text of `inputInfix`. -/
def startConversion (tbl : QCharTables) (w : SimWindow) : Option SlotResult :=
  let exp := trimmed tbl w.inputInfix
  if exp.isEmpty then
    some ⟨some "Please enter infix expression".toList, w⟩
  else
    match generateSteps tbl exp with
    | none => none
    | some r =>
      let w1 := { w with steps := r.steps, finalPostfix := r.out }
      let w2 := { w1 with inputList := exp.map (fun c => [c]), inputListRow := -1 }
      let w3 := { w2 with stepIndex := 0 }
      match displayStep w3 w3.stepIndex with
      | none => none
      | some w4 => some ⟨none, { w4 with btnNextEnabled := true }⟩

/-- `SimWindow::nextStep`. The increment cannot overflow: it runs only below the
size of `steps`. -/
def nextStep (w : SimWindow) : Option SimWindow :=
  let shown :=
    if w.stepIndex < (w.steps.length : Int) - 1 then
      displayStep { w with stepIndex := w.stepIndex + 1 } (w.stepIndex + 1)
    else some w
  match shown with
  | none => none
  | some w1 =>
    if w1.stepIndex ≥ (w1.steps.length : Int) - 1 then
      some { w1 with btnNextEnabled := false }
    else some w1

/-- `SimWindow::clearAll`. -/
def clearAll (w : SimWindow) : SimWindow :=
  { w with
    inputInfix := [], finalPostfix := [], curSymbol := [], stackStringView := [],
    outputSoFar := [], explanation := [], inputList := [], inputListRow := -1,
    stackTable := [], steps := [], stepIndex := 0, btnNextEnabled := false }

/-- The window after `n` presses of the Next button. -/
def nextSteps : Nat → SimWindow → Option SimWindow
  | 0, w => some w
  | n + 1, w =>
    match nextStep w with
    | none => none
    | some w1 => nextSteps n w1

/-- The cursor sits on the last step of the trace. -/
def atEnd (w : SimWindow) : Prop := w.stepIndex = (w.steps.length : Int) - 1

instance (w : SimWindow) : Decidable (atEnd w) := by unfold atEnd; infer_instance

/-- A window as the constructor leaves it, with `text` typed into `inputInfix`. -/
def freshWindow (text : QString) : SimWindow :=
  { inputInfix := text, finalPostfix := [], curSymbol := [], stackStringView := [],
    outputSoFar := [], explanation := [], stackTable := [], inputList := [],
    inputListRow := -1, btnNextEnabled := false, steps := [], stepIndex := 0 }

/-! ## Predicates used by the statements -/

/-- Along `extra`, every step records an output at least as long as the one
before it, starting from the buffer `a`. -/
def RunOk : QString → List SimStep → Prop
  | _, [] => True
  | a, x :: xs => a.length ≤ x.output.length ∧ RunOk x.output xs

/-- The output recorded by the last step of `extra`, or `a` when there is none. -/
def lastOut : QString → List SimStep → QString
  | a, [] => a
  | _, x :: xs => lastOut x.output xs

/-- The state `s1` continues the trace `steps` and buffer `out`: it only appends
steps, each recording the buffer at that moment, and the buffer never shrinks. -/
def Grows (steps : List SimStep) (out : QString) (s1 : GenState) : Prop :=
  ∃ extra, s1.steps = steps ++ extra ∧ RunOk out extra ∧ s1.out = lastOut out extra

/-- Every `')'` of the text has a matching `'('` before it: no prefix (the first
`n` characters, for each `n` up to the length) holds more `')'` than `'('`.
Unmatched `'('` are allowed. -/
def closeMatched (e : QString) : Prop :=
  ∀ n, n ≤ e.length → (e.take n).count ')' ≤ (e.take n).count '('

instance (e : QString) : Decidable (closeMatched e) := by unfold closeMatched; infer_instance

/-- The same for a text read when `d` parentheses are already open. -/
def matchedFrom (d : Nat) (l : List Char) : Prop :=
  ∀ n, (l.take n).count ')' ≤ (l.take n).count '(' + d

/-- The symbols of a stack that the drain sends to the output: all but `'('`. -/
def pending (st : QStack) : List Char := st.filter (fun t => t != '(')

/-- A step recorded right after a push (`"'(' pushed"`, `"Operator pushed"`). -/
def SimStep.isPush (x : SimStep) : Bool :=
  x.message == "'(' pushed".toList || x.message == "Operator pushed".toList

/-- A step recorded right after a pop: one of the three pops of the scan, or a
step of the drain (`END`). -/
def SimStep.isPop (x : SimStep) : Bool :=
  x.message == "Popping until '('".toList || x.message == "Removed '('".toList
    || x.message == "Popped due to precedence".toList || x.current == "END".toList

/-- In the trace `steps` there are as many push steps as pop steps plus symbols
still on the stack `st`. -/
def PushPop (steps : List SimStep) (st : QStack) : Prop :=
  steps.countP SimStep.isPush = steps.countP SimStep.isPop + st.length

/-- The symbols of the text that the scan sends to the output or the stack and
that the conversion keeps: operands and operators. -/
def keptSymbols (tbl : QCharTables) (l : List Char) : List Char :=
  l.filter (fun c => isLetterOrNumber tbl c || isOperator c)

/-! ## The reference: parse trees of infix expressions -/

/-- A parse tree of an infix expression: an operand, a parenthesised expression
or a binary operation. -/
inductive Expr where
  | operand (c : Char)
  | paren (e : Expr)
  | binary (op : Char) (l r : Expr)
  deriving DecidableEq, Repr

/-- The infix text of a parse tree. -/
def Expr.toInfix : Expr → QString
  | .operand c => [c]
  | .paren e => '(' :: (e.toInfix ++ [')'])
  | .binary op l r => l.toInfix ++ op :: r.toInfix

/-- The post-order traversal of a parse tree: both operands, then the operator;
parentheses leave no trace. -/
def Expr.postorder : Expr → QString
  | .operand c => [c]
  | .paren e => e.postorder
  | .binary op l r => l.postorder ++ r.postorder ++ [op]

/-- How tightly the root of a tree binds: the precedence of its operator
(1 for `+ -`, 2 for `* /`, 3 for `^`), and 4 for an operand or a parenthesised
expression. -/
def Expr.level : Expr → Nat
  | .binary op _ _ => precedence op
  | _ => 4

/-- The tree is the parse tree of its text under the precedences
`{+,-} < {*,/} < {^}` with every operator associating to the left: operands are
single operand characters, operators are among `+ - * / ^`, the left operand of
an operator binds at least as tightly as the operator and the right operand
strictly tighter (anything looser is parenthesised). -/
def Expr.WellFormed (tbl : QCharTables) : Expr → Prop
  | .operand c => isLetterOrNumber tbl c = true
  | .paren e => e.WellFormed tbl
  | .binary op l r =>
    isOperator op = true ∧ l.WellFormed tbl ∧ r.WellFormed tbl
      ∧ precedence op ≤ l.level ∧ precedence op < r.level

/-- The stack holds operators and `'('` only, and whatever lies directly under
an operator has a strictly lower precedence (`'('` has precedence 0). -/
def StackOk : QStack → Prop
  | [] => True
  | t :: rest =>
    (t = '(' ∨ isOperator t = true)
      ∧ (isOperator t = true → ∀ u, rest.head? = some u → precedence u < precedence t)
      ∧ StackOk rest

/-- The state `s1` continues the trace `steps` with steps that all satisfy `P`. -/
def Appends (P : SimStep → Prop) (steps : List SimStep) (s1 : GenState) : Prop :=
  ∃ extra, s1.steps = steps ++ extra ∧ ∀ x ∈ extra, P x

/-- The number of steps and stack cells that one symbol of the text accounts
for: 1 for an operand, 2 for a `'('` or an operator (its push and its pop), 0
for anything else. -/
def stepWeight (tbl : QCharTables) (c : Char) : Nat :=
  if isLetterOrNumber tbl c = true then 1
  else if c = '(' then 2
  else if c = ')' then 0
  else if isOperator c = true then 2
  else 0


/-! # Theorems -/

/-! ## The recorded steps follow the output buffer -/

theorem RunOk_append (a : QString) (e1 e2 : List SimStep) :
    RunOk a (e1 ++ e2) ↔ RunOk a e1 ∧ RunOk (lastOut a e1) e2 := by
  induction e1 generalizing a with
  | nil => simp [RunOk, lastOut]
  | cons x xs ih => simp [RunOk, lastOut, ih, and_assoc]

theorem lastOut_append (a : QString) (e1 e2 : List SimStep) :
    lastOut a (e1 ++ e2) = lastOut (lastOut a e1) e2 := by
  induction e1 generalizing a with
  | nil => simp [lastOut]
  | cons x xs ih => simp [lastOut, ih]

theorem Grows.refl (steps : List SimStep) (out : QString) (st : QStack) :
    Grows steps out ⟨steps, out, st⟩ :=
  ⟨[], by simp, trivial, rfl⟩

/-- Appending one step that records a buffer no shorter than `out`, then
continuing from there, continues the original trace. -/
theorem Grows.step {steps : List SimStep} {out : QString} {x : SimStep} {s1 : GenState}
    (hx : out.length ≤ x.output.length) (h : Grows (steps ++ [x]) x.output s1) :
    Grows steps out s1 := by
  obtain ⟨extra, h1, h2, h3⟩ := h
  exact ⟨x :: extra, by simp [h1], ⟨hx, h2⟩, by simpa [lastOut] using h3⟩

theorem Grows.trans {steps : List SimStep} {out : QString} {s1 s2 : GenState}
    (h1 : Grows steps out s1) (h2 : Grows s1.steps s1.out s2) : Grows steps out s2 := by
  obtain ⟨e1, a1, b1, c1⟩ := h1
  obtain ⟨e2, a2, b2, c2⟩ := h2
  refine ⟨e1 ++ e2, by simp [a2, a1], ?_, ?_⟩
  · rw [RunOk_append]; exact ⟨b1, by rw [← c1]; exact b2⟩
  · rw [lastOut_append, ← c1]; exact c2

theorem popUntilParen_grows (st : QStack) (steps : List SimStep) (out : QString) :
    Grows steps out (popUntilParen steps out st) := by
  induction st generalizing steps out with
  | nil => exact Grows.refl _ _ _
  | cons t rest ih =>
    unfold popUntilParen
    split
    · exact Grows.step (by simp) (ih _ _)
    · exact Grows.refl _ _ _

theorem popPrecedence_grows (c : Char) (st : QStack) (steps : List SimStep) (out : QString) :
    Grows steps out (popPrecedence c steps out st) := by
  induction st generalizing steps out with
  | nil => exact Grows.refl _ _ _
  | cons t rest ih =>
    unfold popPrecedence
    split
    · exact Grows.step (by simp) (ih _ _)
    · exact Grows.refl _ _ _

theorem drain_grows (st : QStack) (steps : List SimStep) (out : QString) :
    Grows steps out (drain steps out st) := by
  induction st generalizing steps out with
  | nil => exact Grows.refl _ _ _
  | cons t rest ih =>
    unfold drain
    exact Grows.step (by dsimp only; split <;> simp) (ih _ _)

theorem processChar_grows {tbl : QCharTables} {s s1 : GenState} {c : Char}
    (h : processChar tbl s c = some s1) : Grows s.steps s.out s1 := by
  unfold processChar at h
  split at h
  · cases h; exact Grows.step (by simp) (Grows.refl _ _ _)
  · split at h
    · cases h; exact Grows.step (by simp) (Grows.refl _ _ _)
    · split at h
      · have hg := popUntilParen_grows s.st s.steps s.out
        split at h
        · cases h
        · next steps1 out1 top rest heq =>
          cases h
          rw [heq] at hg
          exact Grows.trans hg (Grows.step (by simp) (Grows.refl _ _ _))
      · split at h
        · have hg := popPrecedence_grows c s.st s.steps s.out
          split at h
          next steps1 out1 st1 heq =>
          cases h
          rw [heq] at hg
          exact Grows.trans hg (Grows.step (by simp) (Grows.refl _ _ _))
        · cases h; exact Grows.refl _ _ _

theorem scan_grows {tbl : QCharTables} {l : List Char} {s s1 : GenState}
    (h : scan tbl l s = some s1) : Grows s.steps s.out s1 := by
  induction l generalizing s with
  | nil => simp [scan] at h; subst h; exact Grows.refl _ _ _
  | cons c cs ih =>
    unfold scan at h
    split at h
    · cases h
    · next s2 hp => exact Grows.trans (processChar_grows hp) (ih h)

/-- The trace of a completed run is the initial step followed by steps that
record the growing output buffer, the last of them the published text. -/
theorem generateSteps_grows {tbl : QCharTables} {e : QString} {r : GenState}
    (h : generateSteps tbl e = some r) :
    ∃ extra, r.steps = initialStep :: extra ∧ RunOk [] extra ∧ r.out = lastOut [] extra := by
  unfold generateSteps at h
  split at h
  · cases h
  · next s hs =>
    cases h
    have := Grows.trans (scan_grows hs) (drain_grows s.st s.steps s.out)
    simpa [Grows] using this

theorem RunOk_consecutive {a : QString} {extra : List SimStep} (h : RunOk a extra)
    (i : Nat) (x y : SimStep) (hx : extra[i]? = some x) (hy : extra[i + 1]? = some y) :
    x.output.length ≤ y.output.length := by
  induction extra generalizing a i with
  | nil => simp at hx
  | cons z zs ih =>
    cases i with
    | zero =>
      cases zs with
      | nil => simp at hy
      | cons z2 zs2 =>
        simp at hx hy
        subst hx hy
        exact h.2.1
    | succ j =>
      simp at hx hy
      exact ih h.2 j hx hy

theorem lastOut_getLast (a : QString) (extra : List SimStep) (x : SimStep)
    (h : extra.getLast? = some x) : lastOut a extra = x.output := by
  induction extra generalizing a with
  | nil => simp at h
  | cons z zs ih =>
    cases zs with
    | nil => simp at h; subst h; rfl
    | cons z2 zs2 =>
      rw [List.getLast?_cons_cons] at h
      simpa [lastOut] using ih z.output h

/-! ## Claims on the trace -/

/-- C2, as the code has it: whenever `generateSteps` completes, the trace is not
empty and its first step is the initial step, whose fields are `"-"`,
`"(empty)"`, `"(empty)"` (the output field, too, holds the text `(empty)`) and
`"Starting conversion..."`. -/
theorem generateSteps_first_step (tbl : QCharTables) (e : QString) (r : GenState)
    (h : generateSteps tbl e = some r) :
    r.steps ≠ [] ∧
    r.steps.head? = some ⟨"-".toList, "(empty)".toList, "(empty)".toList,
      "Starting conversion...".toList⟩ := by
  obtain ⟨extra, h1, _, _⟩ := generateSteps_grows h
  rw [h1]
  exact ⟨by simp, rfl⟩

/-- Witness of C2: the trace of `"A+B"` starts with the initial step. -/
theorem generateSteps_first_step_witness :
    generateSteps asciiTables "A+B".toList ≠ none ∧
    ∀ r, generateSteps asciiTables "A+B".toList = some r →
      r.steps ≠ [] ∧
      r.steps.head? = some ⟨"-".toList, "(empty)".toList, "(empty)".toList,
        "Starting conversion...".toList⟩ :=
  ⟨by decide, fun r h => generateSteps_first_step asciiTables "A+B".toList r h⟩

/-- Counterexample to C2 as stated: on the input `"A"` the first step of the
trace has the output `"(empty)"`, not the empty string. -/
theorem first_step_output_not_blank :
    ∃ r s, generateSteps asciiTables "A".toList = some r ∧ r.steps[0]? = some s ∧
      s.output = "(empty)".toList ∧ s.output ≠ "".toList :=
  ⟨_, _, rfl, rfl, rfl, by decide⟩

/-- C3, as the code has it: whenever `generateSteps` completes, the recorded
output never gets shorter from a step to the next one, for every pair of
consecutive steps after the initial step (`1 ≤ i`). -/
theorem generateSteps_output_monotone (tbl : QCharTables) (e : QString) (r : GenState)
    (h : generateSteps tbl e = some r) (i : Nat) (a b : SimStep) (hi : 1 ≤ i)
    (ha : r.steps[i]? = some a) (hb : r.steps[i + 1]? = some b) :
    a.output.length ≤ b.output.length := by
  obtain ⟨extra, h1, h2, _⟩ := generateSteps_grows h
  obtain ⟨j, rfl⟩ : ∃ j, i = j + 1 := ⟨i - 1, by omega⟩
  rw [h1] at ha hb
  simp at ha hb
  exact RunOk_consecutive h2 j a b ha hb

/-- Witness of C3: steps 1 and 2 of the trace of `"A+B"`. -/
theorem generateSteps_output_monotone_witness :
    ∃ r a b, generateSteps asciiTables "A+B".toList = some r ∧
      r.steps[1]? = some a ∧ r.steps[2]? = some b ∧
      a.output.length ≤ b.output.length :=
  ⟨_, _, _, rfl, rfl, rfl,
    generateSteps_output_monotone asciiTables "A+B".toList _ rfl 1 _ _ (by decide) rfl rfl⟩

/-- Counterexample to C3 as stated (`i = 0` included): on the input `"A"` the
initial step records an output of 7 characters and the next step one of 1. -/
theorem output_shrinks_after_initial_step :
    ∃ r a b, generateSteps asciiTables "A".toList = some r ∧
      r.steps[0]? = some a ∧ r.steps[1]? = some b ∧
      a.output.length = 7 ∧ b.output.length = 1 ∧
      ¬ a.output.length ≤ b.output.length :=
  ⟨_, _, _, rfl, rfl, rfl, rfl, rfl, by decide⟩

/-- C4, as the code has it: whenever `generateSteps` completes with a trace of
at least two steps (a step was recorded after the initial one), the text it
publishes is the output recorded by the last step. -/
theorem generateSteps_final_is_last_output (tbl : QCharTables) (e : QString) (r : GenState)
    (h : generateSteps tbl e = some r) (hlen : 2 ≤ r.steps.length) :
    r.steps.getLast?.map SimStep.output = some r.out := by
  obtain ⟨extra, h1, _, h3⟩ := generateSteps_grows h
  rw [h1] at hlen ⊢
  cases extra with
  | nil => simp at hlen
  | cons x xs =>
    rw [List.getLast?_cons_cons, h3]
    cases hl : (x :: xs).getLast? with
    | none => simp at hl
    | some y => simp [lastOut_getLast [] (x :: xs) y hl]

/-- Witness of C4: the trace of `"A+B"` has 5 steps and publishes `"AB+"`. -/
theorem generateSteps_final_is_last_output_witness :
    ∃ r, generateSteps asciiTables "A+B".toList = some r ∧ 2 ≤ r.steps.length ∧
      r.out = "AB+".toList ∧ r.steps.getLast?.map SimStep.output = some r.out :=
  ⟨_, rfl, by decide, rfl,
    generateSteps_final_is_last_output asciiTables "A+B".toList _ rfl (by decide)⟩

/-- Counterexample to C4 as stated: the entry point accepts the text `"@"`, the
trace holds the initial step only, the published postfix is empty and the last
step's output is `"(empty)"`. -/
theorem final_differs_from_last_output :
    ∃ res x, startConversion asciiTables (freshWindow "@".toList) = some res ∧
      res.warning = none ∧ res.window.finalPostfix = "".toList ∧
      res.window.steps.getLast? = some x ∧ x.output = "(empty)".toList ∧
      x.output ≠ res.window.finalPostfix :=
  ⟨_, _, rfl, rfl, rfl, rfl, rfl, by decide⟩

theorem prependAll_eq (st : QStack) (v : List Char) :
    stackToString.prependAll st v = st.reverse ++ v := by
  induction st generalizing v with
  | nil => rfl
  | cons t rest ih => simp [stackToString.prependAll, ih]

/-- The text of a non-empty stack lists the symbols from the bottom to the top. -/
theorem stackToString_of_ne_nil (st : QStack) (h : st ≠ []) :
    stackToString st = st.reverse := by
  cases st with
  | nil => exact absurd rfl h
  | cons t rest => simp [stackToString, prependAll_eq]

/-- C5, the code at the failing input `"A+B*C"`: the step that pushes `*` on top
of `+` records the stack text `"+*"`, whose first character is the bottom of the
stack and whose last character is the top; in general the text of a non-empty
stack is the stack read from the bottom up, while an empty stack gives
`"(empty)"`. -/
theorem stack_text_is_bottom_first (tbl : QCharTables) :
    (∃ r, generateSteps tbl "A+B*C".toList = some r ∧
      r.steps[4]? = some ⟨"*".toList, "+*".toList, "AB".toList,
        "Operator pushed".toList⟩) ∧
    stackToString [] = "(empty)".toList ∧
    (∀ top rest, stackToString (top :: rest) = rest.reverse ++ [top]) :=
  ⟨⟨_, rfl, rfl⟩, rfl, fun top rest => by
    rw [stackToString_of_ne_nil _ (by simp)]; simp⟩

/-- C6, the code at the failing inputs `")"` and `"A+B)"`: the `')'` branch pops
an empty stack, so the run does not complete. -/
theorem generateSteps_pops_empty_stack (tbl : QCharTables) :
    generateSteps tbl ")".toList = none ∧ generateSteps tbl "A+B)".toList = none :=
  ⟨rfl, rfl⟩

/-! ## The slots -/

theorem trimmed_isEmpty_iff (tbl : QCharTables) (s : QString) :
    (trimmed tbl s).isEmpty = true ↔ ∀ c ∈ s, isSpace tbl c = true := by
  unfold trimmed
  rw [List.isEmpty_iff, List.reverse_eq_nil_iff, List.dropWhile_eq_nil_iff]
  constructor
  · intro h
    have hnil : s.dropWhile (isSpace tbl) = [] := by
      cases hd : s.dropWhile (isSpace tbl) with
      | nil => rfl
      | cons x xs =>
        have h1 : isSpace tbl x = true := h x (by simp [hd])
        have h2 := List.head_dropWhile_not (isSpace tbl) s (by simp [hd])
        simp [hd] at h2
        simp [h1] at h2
    exact List.dropWhile_eq_nil_iff.mp hnil
  · intro h
    have hnil : s.dropWhile (isSpace tbl) = [] := List.dropWhile_eq_nil_iff.mpr h
    simp [hnil]

theorem displayStep_steps {w w1 : SimWindow} {i : Int} (h : displayStep w i = some w1) :
    w1.steps = w.steps ∧ w1.stepIndex = w.stepIndex ∧
      w1.btnNextEnabled = w.btnNextEnabled ∧ w1.finalPostfix = w.finalPostfix := by
  unfold displayStep at h
  split at h
  · cases h
  · split at h
    · cases h
    · dsimp only at h
      split at h <;> split at h <;> cases h <;> exact ⟨rfl, rfl, rfl, rfl⟩

theorem displayStep_isSome {w : SimWindow} {i : Int} (h0 : 0 ≤ i)
    (h1 : i < (w.steps.length : Int)) : ∃ w1, displayStep w i = some w1 := by
  have hlt : i.toNat < w.steps.length := by omega
  unfold displayStep
  rw [if_neg (by omega)]
  rw [List.getElem?_eq_getElem hlt]
  dsimp only
  split <;> exact ⟨_, rfl⟩

theorem displayStep_bounds {w w1 : SimWindow} {i : Int} (h : displayStep w i = some w1) :
    0 ≤ i ∧ i < (w.steps.length : Int) := by
  unfold displayStep at h
  split at h
  · cases h
  · split at h
    · cases h
    · next s hs =>
      have := (List.getElem?_eq_some_iff.mp hs).1
      omega

theorem startConversion_blank {tbl : QCharTables} {w : SimWindow}
    (hb : ∀ c ∈ w.inputInfix, isSpace tbl c = true) :
    startConversion tbl w = some ⟨some "Please enter infix expression".toList, w⟩ := by
  have hb1 := (trimmed_isEmpty_iff tbl w.inputInfix).mpr hb
  unfold startConversion
  simp only [hb1, if_true]

theorem startConversion_fails {tbl : QCharTables} {w : SimWindow}
    (hnb : ¬ ∀ c ∈ w.inputInfix, isSpace tbl c = true)
    (hr : generateSteps tbl (trimmed tbl w.inputInfix) = none) :
    startConversion tbl w = none := by
  have hb : ¬ (trimmed tbl w.inputInfix).isEmpty = true :=
    fun h => hnb ((trimmed_isEmpty_iff tbl w.inputInfix).mp h)
  unfold startConversion
  simp only [hb, hr, Bool.false_eq_true, if_false]

theorem startConversion_runs {tbl : QCharTables} {w : SimWindow} {r : GenState}
    (hnb : ¬ ∀ c ∈ w.inputInfix, isSpace tbl c = true)
    (hr : generateSteps tbl (trimmed tbl w.inputInfix) = some r) :
    ∃ w1, startConversion tbl w = some ⟨none, w1⟩ ∧ w1.steps = r.steps ∧
      w1.finalPostfix = r.out ∧ w1.stepIndex = 0 ∧ w1.btnNextEnabled = true := by
  have hb : ¬ (trimmed tbl w.inputInfix).isEmpty = true :=
    fun h => hnb ((trimmed_isEmpty_iff tbl w.inputInfix).mp h)
  obtain ⟨extra, hsteps, _, _⟩ := generateSteps_grows hr
  unfold startConversion
  simp only [hb, hr, Bool.false_eq_true, if_false]
  obtain ⟨w4, h4⟩ := displayStep_isSome
    (w := { w with steps := r.steps, finalPostfix := r.out,
                   inputList := (trimmed tbl w.inputInfix).map (fun c => [c]),
                   inputListRow := -1, stepIndex := 0 })
    (i := 0) (le_refl 0) (by simp [hsteps])
  have hd := displayStep_steps h4
  rw [h4]
  exact ⟨_, rfl, hd.1, hd.2.2.2, hd.2.1, rfl⟩

/-- After a successful `startConversion` either the warning was raised and the
window is untouched, or no warning was raised. -/
theorem startConversion_warning {tbl : QCharTables} {w w1 : SimWindow} {msg : QString}
    (h : startConversion tbl w = some ⟨some msg, w1⟩) :
    (∀ c ∈ w.inputInfix, isSpace tbl c = true) ∧
      msg = "Please enter infix expression".toList ∧ w1 = w := by
  by_cases hb : ∀ c ∈ w.inputInfix, isSpace tbl c = true
  · rw [startConversion_blank hb] at h
    simp only [Option.some.injEq, SlotResult.mk.injEq] at h
    exact ⟨hb, h.1.symm, h.2.symm⟩
  · exfalso
    cases hg : generateSteps tbl (trimmed tbl w.inputInfix) with
    | none => rw [startConversion_fails hb hg] at h; cases h
    | some r =>
      obtain ⟨w2, h1, _⟩ := startConversion_runs hb hg
      rw [h1] at h
      simp at h

/-- What `startConversion` does, case by case: it raises the empty-input warning
exactly when the text of `inputInfix` is empty or holds whitespace only, and
then leaves the whole window, `steps` and `stepIndex` included, as it was. For
any other text it runs `generateSteps` on the trimmed text: when that run does
not complete neither does the slot, and when it completes the slot stores its
trace and postfix, sets `stepIndex` to 0 and enables the Next button. -/
theorem startConversion_rejects_iff_blank (tbl : QCharTables) (w : SimWindow) :
    ((∃ msg w1, startConversion tbl w = some ⟨some msg, w1⟩) ↔
        ∀ c ∈ w.inputInfix, isSpace tbl c = true) ∧
    (∀ msg w1, startConversion tbl w = some ⟨some msg, w1⟩ →
        msg = "Please enter infix expression".toList ∧ w1 = w) ∧
    ((¬ ∀ c ∈ w.inputInfix, isSpace tbl c = true) →
        (generateSteps tbl (trimmed tbl w.inputInfix) = none →
          startConversion tbl w = none) ∧
        ∀ r, generateSteps tbl (trimmed tbl w.inputInfix) = some r →
          ∃ w1, startConversion tbl w = some ⟨none, w1⟩ ∧ w1.steps = r.steps ∧
            w1.finalPostfix = r.out ∧ w1.stepIndex = 0 ∧ w1.btnNextEnabled = true) :=
  ⟨⟨fun ⟨_, _, h⟩ => (startConversion_warning h).1,
      fun hb => ⟨_, _, startConversion_blank hb⟩⟩,
    fun _ _ h => (startConversion_warning h).2,
    fun hnb => ⟨startConversion_fails hnb, fun _ hr => startConversion_runs hnb hr⟩⟩

/-- The two rejected texts named by the specification, and an accepted one. -/
theorem startConversion_examples (tbl : QCharTables) :
    startConversion tbl (freshWindow "".toList)
      = some ⟨some "Please enter infix expression".toList, freshWindow "".toList⟩ ∧
    startConversion tbl (freshWindow "   ".toList)
      = some ⟨some "Please enter infix expression".toList, freshWindow "   ".toList⟩ ∧
    (startConversion tbl (freshWindow " A+B ".toList)).map
        (fun res => (res.warning, res.window.finalPostfix, res.window.stepIndex))
      = some (none, "AB+".toList, 0) :=
  ⟨rfl, rfl, rfl⟩

/-- C7, the code at the failing inputs `")"` and `"A+B)"`: neither text is blank,
so `startConversion` raises no warning and runs `generateSteps` on the trimmed
text; that run pops an empty stack, so the slot does not complete and never
reaches `stepIndex = 0`. -/
theorem startConversion_pops_empty_stack (tbl : QCharTables) :
    (¬ ∀ c ∈ (freshWindow ")".toList).inputInfix, isSpace tbl c = true) ∧
    trimmed tbl (freshWindow ")".toList).inputInfix = ")".toList ∧
    generateSteps tbl (trimmed tbl (freshWindow ")".toList).inputInfix) = none ∧
    startConversion tbl (freshWindow ")".toList) = none ∧
    (¬ ∀ c ∈ (freshWindow "A+B)".toList).inputInfix, isSpace tbl c = true) ∧
    startConversion tbl (freshWindow "A+B)".toList) = none := by
  have hclose : isSpace tbl ')' = false := rfl
  refine ⟨fun h => ?_, rfl, rfl, rfl, fun h => ?_, rfl⟩
  · have := h ')' (by simp [freshWindow])
    rw [hclose] at this
    cases this
  · have := h ')' (by simp [freshWindow])
    rw [hclose] at this
    cases this

theorem nextStep_ready {w : SimWindow} (h0 : 0 ≤ w.stepIndex)
    (h1 : w.stepIndex < (w.steps.length : Int)) :
    ∃ w1, nextStep w = some w1 ∧ w1.steps = w.steps ∧
      w1.stepIndex = min (w.stepIndex + 1) ((w.steps.length : Int) - 1) := by
  unfold nextStep
  by_cases hlt : w.stepIndex < (w.steps.length : Int) - 1
  · obtain ⟨w2, h2⟩ := displayStep_isSome (w := { w with stepIndex := w.stepIndex + 1 })
      (i := w.stepIndex + 1) (by omega) (by simp; omega)
    obtain ⟨hs, hi, _, _⟩ := displayStep_steps h2
    simp only [hlt, if_true, h2]
    simp only at hs hi
    split
    · exact ⟨_, rfl, hs, by simp only [hi]; omega⟩
    · exact ⟨_, rfl, hs, by simp only [hi]; omega⟩
  · simp only [hlt, if_false]
    rw [if_pos (by omega)]
    exact ⟨_, rfl, rfl, by simp only; omega⟩

theorem nextSteps_ready (n : Nat) {w : SimWindow} (h0 : 0 ≤ w.stepIndex)
    (h1 : w.stepIndex < (w.steps.length : Int)) :
    ∃ w1, nextSteps n w = some w1 ∧ w1.steps = w.steps ∧
      w1.stepIndex = min (w.stepIndex + n) ((w.steps.length : Int) - 1) := by
  induction n generalizing w with
  | zero => exact ⟨w, rfl, rfl, by simp; omega⟩
  | succ k ih =>
    obtain ⟨w1, e1, s1, i1⟩ := nextStep_ready h0 h1
    obtain ⟨w2, e2, s2, i2⟩ := ih (w := w1) (by omega) (by rw [s1]; omega)
    refine ⟨w2, ?_, by rw [s2, s1], ?_⟩
    · simp only [nextSteps, e1, e2]
    · rw [i2, s1, i1]; push_cast; omega

theorem nextStep_atEnd {w : SimWindow} (h : atEnd w) :
    nextStep w = some { w with btnNextEnabled := false } := by
  unfold atEnd at h
  unfold nextStep
  rw [if_neg (by omega)]
  simp only
  rw [if_pos (by omega)]

theorem nextSteps_atEnd (n : Nat) {w : SimWindow} (h : atEnd w) :
    nextSteps (n + 1) w = some { w with btnNextEnabled := false } := by
  induction n generalizing w with
  | zero => simp only [nextSteps, nextStep_atEnd h]
  | succ k ih =>
    have h2 : atEnd { w with btnNextEnabled := false } := h
    rw [nextSteps, nextStep_atEnd h]
    simp only
    rw [ih h2]

theorem startConversion_ready {tbl : QCharTables} {w w0 : SimWindow}
    (h : startConversion tbl w = some ⟨none, w0⟩) :
    w0.stepIndex = 0 ∧ 0 < w0.steps.length := by
  by_cases hb : ∀ c ∈ w.inputInfix, isSpace tbl c = true
  · rw [startConversion_blank hb] at h
    simp at h
  · cases hg : generateSteps tbl (trimmed tbl w.inputInfix) with
    | none => rw [startConversion_fails hb hg] at h; cases h
    | some r =>
      obtain ⟨w1, e1, s1, _, i1, _⟩ := startConversion_runs hb hg
      rw [e1] at h
      simp only [Option.some.injEq, SlotResult.mk.injEq, true_and] at h
      subst h
      obtain ⟨extra, hsteps, _, _⟩ := generateSteps_grows hg
      exact ⟨i1, by rw [s1, hsteps]; simp⟩

/-- C8: after a successful `startConversion`, `k` calls of `nextStep` put the
cursor on step `k` for every `k` up to `stepCount - 1`; `stepCount - 1` calls
leave it on the last step (`atEnd`), and any number of further calls keep
`steps`, `stepIndex` and `atEnd` as they are, changing nothing in the window
except that the Next button is disabled. -/
theorem nextStep_reaches_end (tbl : QCharTables) (w w0 : SimWindow)
    (h : startConversion tbl w = some ⟨none, w0⟩) :
    (∀ k : Nat, k ≤ w0.steps.length - 1 →
      ∃ wk, nextSteps k w0 = some wk ∧ wk.stepIndex = (k : Int)) ∧
    ∃ w1, nextSteps (w0.steps.length - 1) w0 = some w1 ∧ w1.steps = w0.steps ∧
      w1.stepIndex = (w0.steps.length : Int) - 1 ∧ atEnd w1 ∧
      ∀ n : Nat, ∃ w2, nextSteps n w1 = some w2 ∧ w2.steps = w1.steps ∧
        w2.stepIndex = w1.stepIndex ∧ atEnd w2 ∧
        (w2 = w1 ∨ w2 = { w1 with btnNextEnabled := false }) := by
  obtain ⟨hi, hlen⟩ := startConversion_ready h
  have h0 : 0 ≤ w0.stepIndex := by omega
  have h1 : w0.stepIndex < (w0.steps.length : Int) := by omega
  refine ⟨fun k hk => ?_, ?_⟩
  · obtain ⟨wk, e, _, i⟩ := nextSteps_ready k h0 h1
    exact ⟨wk, e, by rw [i, hi]; omega⟩
  · obtain ⟨w1, e, s, i⟩ := nextSteps_ready (w0.steps.length - 1) h0 h1
    have hidx : w1.stepIndex = (w0.steps.length : Int) - 1 := by rw [i, hi]; omega
    have hend : atEnd w1 := by unfold atEnd; rw [s, hidx]
    refine ⟨w1, e, s, hidx, hend, fun n => ?_⟩
    cases n with
    | zero => exact ⟨w1, rfl, rfl, rfl, hend, Or.inl rfl⟩
    | succ m => exact ⟨_, nextSteps_atEnd m hend, rfl, rfl, hend, Or.inr rfl⟩

/-- Witness of C8: the trace of `"A+B"` has 5 steps; 4 calls of `nextStep` reach
the last one and 3 more calls stay there. -/
theorem nextStep_reaches_end_witness :
    ∃ w0, startConversion asciiTables (freshWindow "A+B".toList) = some ⟨none, w0⟩ ∧
      w0.steps.length = 5 ∧
      (nextSteps 4 w0).map (fun w1 => w1.stepIndex) = some 4 ∧
      (nextSteps 7 w0).map (fun w1 => w1.stepIndex) = some 4 ∧
      ((∀ k : Nat, k ≤ w0.steps.length - 1 →
        ∃ wk, nextSteps k w0 = some wk ∧ wk.stepIndex = (k : Int)) ∧
      ∃ w1, nextSteps (w0.steps.length - 1) w0 = some w1 ∧ w1.steps = w0.steps ∧
        w1.stepIndex = (w0.steps.length : Int) - 1 ∧ atEnd w1 ∧
        ∀ n : Nat, ∃ w2, nextSteps n w1 = some w2 ∧ w2.steps = w1.steps ∧
          w2.stepIndex = w1.stepIndex ∧ atEnd w2 ∧
          (w2 = w1 ∨ w2 = { w1 with btnNextEnabled := false })) :=
  ⟨_, rfl, rfl, rfl, rfl,
    nextStep_reaches_end asciiTables (freshWindow "A+B".toList) _ rfl⟩

/-- C9: after a successful `startConversion` and any number `n` of `nextStep`
calls the window is defined (no `displayStep` call left the bounds of `steps`),
`0 ≤ stepIndex < steps.size()` holds and `displayStep(stepIndex)` is defined. -/
theorem stepIndex_in_bounds (tbl : QCharTables) (w w0 : SimWindow)
    (h : startConversion tbl w = some ⟨none, w0⟩) (n : Nat) :
    ∃ w1, nextSteps n w0 = some w1 ∧ 0 ≤ w1.stepIndex ∧
      w1.stepIndex < (w1.steps.length : Int) ∧
      ∃ w2, displayStep w1 w1.stepIndex = some w2 := by
  obtain ⟨hi, hlen⟩ := startConversion_ready h
  obtain ⟨w1, e, s, i⟩ := nextSteps_ready n (w := w0) (by omega) (by omega)
  have a : 0 ≤ w1.stepIndex := by rw [i, hi]; omega
  have b : w1.stepIndex < (w1.steps.length : Int) := by rw [i, hi, s]; omega
  exact ⟨w1, e, a, b, displayStep_isSome a b⟩

/-- Witness of C9: the window of `"A+B"` after 9 calls of `nextStep`. -/
theorem stepIndex_in_bounds_witness :
    ∃ w0, startConversion asciiTables (freshWindow "A+B".toList) = some ⟨none, w0⟩ ∧
      ∃ w1, nextSteps 9 w0 = some w1 ∧ 0 ≤ w1.stepIndex ∧
        w1.stepIndex < (w1.steps.length : Int) ∧
        ∃ w2, displayStep w1 w1.stepIndex = some w2 :=
  ⟨_, rfl, stepIndex_in_bounds asciiTables (freshWindow "A+B".toList) _ rfl 9⟩

/-! ## What the loops do to the buffer and the stack -/

theorem popUntilParen_core (st : QStack) (steps : List SimStep) (out : QString) :
    (popUntilParen steps out st).out = out ++ st.takeWhile (fun t => t != '(') ∧
    (popUntilParen steps out st).st = st.dropWhile (fun t => t != '(') := by
  induction st generalizing steps out with
  | nil => simp [popUntilParen]
  | cons t rest ih =>
    unfold popUntilParen
    by_cases ht : (t != '(') = true
    · rw [if_pos ht, List.takeWhile_cons, List.dropWhile_cons, if_pos ht, if_pos ht]
      obtain ⟨a, b⟩ := ih (steps ++ [⟨")".toList, stackToString rest, out ++ [t],
        "Popping until '('".toList⟩]) (out ++ [t])
      exact ⟨by rw [a]; simp, b⟩
    · rw [if_neg ht, List.takeWhile_cons, List.dropWhile_cons, if_neg ht, if_neg ht]
      simp

theorem popPrecedence_core (c : Char) (st : QStack) (steps : List SimStep) (out : QString) :
    (popPrecedence c steps out st).out
      = out ++ st.takeWhile (fun t => decide (precedence t ≥ precedence c)) ∧
    (popPrecedence c steps out st).st
      = st.dropWhile (fun t => decide (precedence t ≥ precedence c)) := by
  induction st generalizing steps out with
  | nil => simp [popPrecedence]
  | cons t rest ih =>
    unfold popPrecedence
    by_cases ht : precedence t ≥ precedence c
    · have hd : decide (precedence t ≥ precedence c) = true := by simpa using ht
      rw [if_pos ht, List.takeWhile_cons, List.dropWhile_cons, if_pos hd, if_pos hd]
      obtain ⟨a, b⟩ := ih (steps ++ [⟨[c], stackToString rest, out ++ [t],
        "Popped due to precedence".toList⟩]) (out ++ [t])
      exact ⟨by rw [a]; simp, b⟩
    · have hd : ¬ decide (precedence t ≥ precedence c) = true := by simpa using ht
      rw [if_neg ht, List.takeWhile_cons, List.dropWhile_cons, if_neg hd, if_neg hd]
      simp

theorem drain_core (st : QStack) (steps : List SimStep) (out : QString) :
    (drain steps out st).out = out ++ pending st ∧ (drain steps out st).st = [] := by
  induction st generalizing steps out with
  | nil => simp [drain, pending]
  | cons t rest ih =>
    unfold drain
    dsimp only
    by_cases ht : (t != '(') = true
    · rw [if_pos ht]
      obtain ⟨a, b⟩ := ih (steps ++ [⟨"END".toList, stackToString rest, out ++ [t],
        "Popped '".toList ++ [t] ++ "'".toList⟩]) (out ++ [t])
      exact ⟨by rw [a]; simp [pending, List.filter_cons, ht], b⟩
    · rw [if_neg ht]
      obtain ⟨a, b⟩ := ih (steps ++ [⟨"END".toList, stackToString rest, out,
        "Popped '".toList ++ [t] ++ "'".toList⟩]) out
      exact ⟨by rw [a]; simp [pending, List.filter_cons, ht], b⟩

/-! ## Symbol classes -/

theorem isOperator_cases {c : Char} (h : isOperator c = true) :
    c = '+' ∨ c = '-' ∨ c = '*' ∨ c = '/' ∨ c = '^' := by
  simpa [isOperator, or_assoc] using h

theorem precedence_pos {c : Char} (h : isOperator c = true) : 1 ≤ precedence c := by
  rcases isOperator_cases h with rfl | rfl | rfl | rfl | rfl <;> decide

theorem isOperator_not_operand (tbl : QCharTables) {c : Char} (h : isOperator c = true) :
    isLetterOrNumber tbl c = false := by
  rcases isOperator_cases h with rfl | rfl | rfl | rfl | rfl <;> rfl

theorem isOperator_ne_open {c : Char} (h : isOperator c = true) : c ≠ '(' := by
  rcases isOperator_cases h with rfl | rfl | rfl | rfl | rfl <;> decide

theorem isOperator_ne_close {c : Char} (h : isOperator c = true) : c ≠ ')' := by
  rcases isOperator_cases h with rfl | rfl | rfl | rfl | rfl <;> decide

theorem precedence_open : precedence '(' = 0 := by decide

theorem ne_open_of_precedence_pos {t : Char} (h : 1 ≤ precedence t) : t ≠ '(' := by
  rintro rfl
  simp [precedence_open] at h

theorem operand_ne_open (tbl : QCharTables) {c : Char} (h : isLetterOrNumber tbl c = true) :
    c ≠ '(' := by
  rintro rfl
  have hf : isLetterOrNumber tbl '(' = false := rfl
  rw [hf] at h
  cases h

theorem operand_ne_close (tbl : QCharTables) {c : Char} (h : isLetterOrNumber tbl c = true) :
    c ≠ ')' := by
  rintro rfl
  have hf : isLetterOrNumber tbl ')' = false := rfl
  rw [hf] at h
  cases h

theorem operand_ne_space (tbl : QCharTables) {c : Char} (h : isLetterOrNumber tbl c = true) :
    c ≠ ' ' := by
  rintro rfl
  have hf : isLetterOrNumber tbl ' ' = false := rfl
  rw [hf] at h
  cases h

/-! ## Push/pop conservation -/

theorem matchedFrom_cons_open {d : Nat} {l : List Char} (h : matchedFrom d ('(' :: l)) :
    matchedFrom (d + 1) l := by
  intro n
  have := h (n + 1)
  simp only [List.take_succ_cons] at this
  rw [List.count_cons_of_ne (by decide), List.count_cons_self] at this
  omega

theorem matchedFrom_cons_close {d : Nat} {l : List Char} (h : matchedFrom d (')' :: l)) :
    1 ≤ d ∧ matchedFrom (d - 1) l := by
  have h1 := h 1
  simp at h1
  refine ⟨h1, fun n => ?_⟩
  have := h (n + 1)
  simp only [List.take_succ_cons] at this
  rw [List.count_cons_self, List.count_cons_of_ne (by decide)] at this
  omega

theorem matchedFrom_cons_other {d : Nat} {c : Char} {l : List Char} (h1 : c ≠ '(')
    (h2 : c ≠ ')') (h : matchedFrom d (c :: l)) : matchedFrom d l := by
  intro n
  have := h (n + 1)
  simp only [List.take_succ_cons] at this
  rw [List.count_cons_of_ne (Ne.symm h2), List.count_cons_of_ne (Ne.symm h1)] at this
  exact this

theorem count_open_dropWhile (st : QStack) :
    (st.dropWhile (fun t => t != '(')).count '(' = st.count '(' := by
  induction st with
  | nil => rfl
  | cons t rest ih =>
    by_cases ht : t = '('
    · subst ht; simp [List.dropWhile_cons]
    · have hb : (t != '(') = true := by simpa using ht
      rw [List.dropWhile_cons, if_pos hb, ih, List.count_cons_of_ne (Ne.symm ht)]

theorem pending_split_open (st : QStack) :
    st.takeWhile (fun t => t != '(') ++ pending (st.dropWhile (fun t => t != '('))
      = pending st := by
  induction st with
  | nil => rfl
  | cons t rest ih =>
    by_cases hb : (t != '(') = true
    · rw [List.takeWhile_cons, List.dropWhile_cons, if_pos hb, if_pos hb]
      simp only [pending, List.filter_cons, hb, if_true, List.cons_append] at ih ⊢
      rw [ih]
    · rw [List.takeWhile_cons, List.dropWhile_cons, if_neg hb, if_neg hb]
      rfl

theorem takeWhile_precedence_no_open {c : Char} (hc : 1 ≤ precedence c) (st : QStack) :
    st.takeWhile (fun t => decide (precedence t ≥ precedence c))
        ++ pending (st.dropWhile (fun t => decide (precedence t ≥ precedence c)))
      = pending st ∧
    (st.dropWhile (fun t => decide (precedence t ≥ precedence c))).count '('
      = st.count '(' := by
  induction st with
  | nil => exact ⟨rfl, rfl⟩
  | cons t rest ih =>
    by_cases ht : precedence t ≥ precedence c
    · have hd : decide (precedence t ≥ precedence c) = true := by simpa using ht
      have hne : t ≠ '(' := ne_open_of_precedence_pos (le_trans hc ht)
      have hb : (t != '(') = true := by simpa using hne
      rw [List.takeWhile_cons, List.dropWhile_cons, if_pos hd, if_pos hd]
      refine ⟨?_, by rw [ih.2, List.count_cons_of_ne (Ne.symm hne)]⟩
      have := ih.1
      simp only [pending, List.filter_cons, hb, if_true, List.cons_append] at this ⊢
      rw [this]
    · have hd : ¬ decide (precedence t ≥ precedence c) = true := by simpa using ht
      rw [List.takeWhile_cons, List.dropWhile_cons, if_neg hd, if_neg hd]
      exact ⟨rfl, rfl⟩

theorem PushPop.push {steps : List SimStep} {st : QStack} {x : SimStep} (c : Char)
    (h : PushPop steps st) (h1 : x.isPush = true) (h2 : x.isPop = false) :
    PushPop (steps ++ [x]) (c :: st) := by
  unfold PushPop at h ⊢
  simp [List.countP_append, List.countP_cons, h1, h2, h]
  omega

theorem PushPop.pop {steps : List SimStep} {st : QStack} {x : SimStep} {t : Char}
    (h : PushPop steps (t :: st)) (h1 : x.isPush = false) (h2 : x.isPop = true) :
    PushPop (steps ++ [x]) st := by
  unfold PushPop at h ⊢
  simp [List.countP_append, List.countP_cons, h1, h2, h] at h ⊢
  omega

theorem PushPop.keep {steps : List SimStep} {st : QStack} {x : SimStep}
    (h : PushPop steps st) (h1 : x.isPush = false) (h2 : x.isPop = false) :
    PushPop (steps ++ [x]) st := by
  unfold PushPop at h ⊢
  simp [List.countP_append, List.countP_cons, h1, h2, h]

theorem popUntilParen_pushPop (st : QStack) (steps : List SimStep) (out : QString)
    (h : PushPop steps st) :
    PushPop (popUntilParen steps out st).steps (popUntilParen steps out st).st := by
  induction st generalizing steps out with
  | nil => exact h
  | cons t rest ih =>
    unfold popUntilParen
    split
    · exact ih _ _ (PushPop.pop h rfl rfl)
    · exact h

theorem popPrecedence_pushPop (c : Char) (st : QStack) (steps : List SimStep)
    (out : QString) (h : PushPop steps st) :
    PushPop (popPrecedence c steps out st).steps (popPrecedence c steps out st).st := by
  induction st generalizing steps out with
  | nil => exact h
  | cons t rest ih =>
    unfold popPrecedence
    split
    · exact ih _ _ (PushPop.pop h rfl rfl)
    · exact h

theorem drain_pushPop (st : QStack) (steps : List SimStep) (out : QString)
    (h : PushPop steps st) : PushPop (drain steps out st).steps [] := by
  induction st generalizing steps out with
  | nil => exact h
  | cons t rest ih =>
    unfold drain
    exact ih _ _ (PushPop.pop h rfl rfl)

/-! ## One iteration of the scan, branch by branch -/

theorem processChar_operand {tbl : QCharTables} {c : Char} (s : GenState)
    (h : isLetterOrNumber tbl c = true) :
    processChar tbl s c = some ⟨s.steps ++ [⟨[c], stackToString s.st, s.out ++ [c],
      "Operand → added to output".toList⟩], s.out ++ [c], s.st⟩ := by
  unfold processChar
  rw [if_pos h]

theorem processChar_open (tbl : QCharTables) (s : GenState) :
    processChar tbl s '(' = some ⟨s.steps ++ [⟨['('], stackToString ('(' :: s.st), s.out,
      "'(' pushed".toList⟩], s.out, '(' :: s.st⟩ := by
  unfold processChar
  have h1 : isLetterOrNumber tbl '(' = false := rfl
  simp [h1]

theorem processChar_close_none {tbl : QCharTables} {s : GenState}
    (h : (popUntilParen s.steps s.out s.st).st = []) : processChar tbl s ')' = none := by
  unfold processChar
  have h1 : isLetterOrNumber tbl ')' = false := rfl
  have h2 : (')' == '(') = false := by decide
  simp only [h1, h2, Bool.false_eq_true, if_false, beq_self_eq_true, if_true]
  generalize popUntilParen s.steps s.out s.st = res at h
  obtain ⟨steps1, out1, st1⟩ := res
  simp only at h
  subst h
  rfl

theorem processChar_close_some (tbl : QCharTables) {s : GenState} {top : Char}
    {rest : QStack} (h : (popUntilParen s.steps s.out s.st).st = top :: rest) :
    processChar tbl s ')' = some ⟨(popUntilParen s.steps s.out s.st).steps
        ++ [⟨")".toList, stackToString rest, (popUntilParen s.steps s.out s.st).out,
          "Removed '('".toList⟩],
      (popUntilParen s.steps s.out s.st).out, rest⟩ := by
  unfold processChar
  have h1 : isLetterOrNumber tbl ')' = false := rfl
  have h2 : (')' == '(') = false := by decide
  simp only [h1, h2, Bool.false_eq_true, if_false, beq_self_eq_true, if_true]
  generalize popUntilParen s.steps s.out s.st = res at h
  obtain ⟨steps1, out1, st1⟩ := res
  simp only at h
  subst h
  rfl

theorem processChar_operator (tbl : QCharTables) {c : Char} (s : GenState)
    (h : isOperator c = true) :
    processChar tbl s c = some ⟨(popPrecedence c s.steps s.out s.st).steps
        ++ [⟨[c], stackToString (c :: (popPrecedence c s.steps s.out s.st).st),
          (popPrecedence c s.steps s.out s.st).out, "Operator pushed".toList⟩],
      (popPrecedence c s.steps s.out s.st).out,
      c :: (popPrecedence c s.steps s.out s.st).st⟩ := by
  unfold processChar
  have h1 := isOperator_not_operand tbl h
  have h2 : (c == '(') = false := by simpa using isOperator_ne_open h
  have h3 : (c == ')') = false := by simpa using isOperator_ne_close h
  simp only [h1, h2, h3, h, Bool.false_eq_true, if_false, if_true]

theorem processChar_other {tbl : QCharTables} {c : Char} (s : GenState)
    (h1 : isLetterOrNumber tbl c = false) (h2 : c ≠ '(') (h3 : c ≠ ')')
    (h4 : isOperator c = false) : processChar tbl s c = some s := by
  unfold processChar
  have h2b : (c == '(') = false := by simpa using h2
  have h3b : (c == ')') = false := by simpa using h3
  simp only [h1, h2b, h3b, h4, Bool.false_eq_true, if_false]

/-- A blank is skipped by the scan, so removing the blanks first changes nothing. -/
theorem scan_filter_space (tbl : QCharTables) (l : List Char) (s : GenState) :
    scan tbl (l.filter (fun c => c != ' ')) s = scan tbl l s := by
  induction l generalizing s with
  | nil => rfl
  | cons c cs ih =>
    by_cases hc : c = ' '
    · subst hc
      have hp : processChar tbl s ' ' = some s :=
        processChar_other s rfl (by decide) (by decide) (by decide)
      simp only [List.filter_cons, bne_self_eq_false, Bool.false_eq_true, if_false, scan, hp]
      exact ih s
    · have hb : (c != ' ') = true := by simpa using hc
      simp only [List.filter_cons, hb, if_true, scan]
      cases processChar tbl s c with
      | none => rfl
      | some s1 => exact ih s1

theorem scan_append (tbl : QCharTables) (l1 l2 : List Char) (s : GenState) :
    scan tbl (l1 ++ l2) s = (scan tbl l1 s).bind (scan tbl l2) := by
  induction l1 generalizing s with
  | nil => rfl
  | cons c cs ih =>
    simp only [List.cons_append, scan]
    cases processChar tbl s c with
    | none => rfl
    | some s1 => exact ih s1

theorem single_ne_END (c : Char) : ([c] == "END".toList) = false := by
  simp [String.toList]

theorem step_single_isPop (c : Char) (stack output message : QString) :
    SimStep.isPop ⟨[c], stack, output, message⟩
      = (message == "Popping until '('".toList || message == "Removed '('".toList
          || message == "Popped due to precedence".toList) := by
  simp only [SimStep.isPop, single_ne_END, Bool.or_false]

theorem keptSymbols_cons (tbl : QCharTables) (c : Char) (l : List Char) :
    keptSymbols tbl (c :: l)
      = (if (isLetterOrNumber tbl c || isOperator c) = true then [c] else [])
        ++ keptSymbols tbl l := by
  unfold keptSymbols
  rw [List.filter_cons]
  split <;> rfl

/-- One iteration of the scan on a symbol that is not an unmatched `')'`: it
completes, the symbols held by the output and the stack (parentheses apart) gain
exactly the symbol read when it is an operand or an operator, the number of
`'('` on the stack follows the parentheses read, and pushes stay balanced with
pops. -/
theorem processChar_effect (tbl : QCharTables) (s : GenState) (c : Char)
    (hc : c = ')' → 1 ≤ s.st.count '(') :
    ∃ s1, processChar tbl s c = some s1 ∧
      List.Perm (s1.out ++ pending s1.st)
        ((s.out ++ pending s.st)
          ++ (if (isLetterOrNumber tbl c || isOperator c) = true then [c] else [])) ∧
      s1.st.count '(' + (if c = ')' then 1 else 0)
        = s.st.count '(' + (if c = '(' then 1 else 0) ∧
      (PushPop s.steps s.st → PushPop s1.steps s1.st) := by
  by_cases h1 : isLetterOrNumber tbl c = true
  · refine ⟨_, processChar_operand s h1, ?_, ?_, fun hp => ?_⟩
    · simp only [h1, Bool.true_or, if_true, List.append_assoc]
      exact List.Perm.append_left _ List.perm_append_comm
    · simp [operand_ne_open tbl h1, operand_ne_close tbl h1]
    · exact PushPop.keep hp rfl (by rw [step_single_isPop]; rfl)
  · have h1f : isLetterOrNumber tbl c = false := by simpa using h1
    by_cases h2 : c = '('
    · subst h2
      refine ⟨_, processChar_open tbl s, ?_, ?_, fun hp => ?_⟩
      · have : isOperator '(' = false := by decide
        simp [h1f, this, pending]
      · simp
      · exact PushPop.push _ hp rfl rfl
    · by_cases h3 : c = ')'
      · subst h3
        have hcount := hc rfl
        obtain ⟨ho, hs⟩ := popUntilParen_core s.st s.steps s.out
        have hcnt : (popUntilParen s.steps s.out s.st).st.count '(' = s.st.count '(' := by
          rw [hs, count_open_dropWhile]
        cases hst : (popUntilParen s.steps s.out s.st).st with
        | nil => rw [hst] at hcnt; simp at hcnt; omega
        | cons top rest =>
          have htop : top = '(' := by
            have hne : s.st.dropWhile (fun t => t != '(') ≠ [] := by
              rw [← hs, hst]; simp
            have := List.head_dropWhile_not (fun t => t != '(') s.st hne
            simp only [← hs, hst, List.head_cons] at this
            simpa using this
          subst htop
          refine ⟨_, processChar_close_some tbl hst, ?_, ?_, fun hp => ?_⟩
          · have hk : isOperator ')' = false := by decide
            simp only [h1f, hk, Bool.or_false, Bool.false_eq_true, if_false,
              List.append_nil]
            have hsplit := pending_split_open s.st
            rw [← hs, hst] at hsplit
            have hpend : pending ('(' :: rest) = pending rest := rfl
            rw [hpend] at hsplit
            rw [ho, List.append_assoc, hsplit]
          · rw [hst] at hcnt
            simp at hcnt ⊢
            omega
          · have hp1 := popUntilParen_pushPop s.st s.steps s.out hp
            rw [hst] at hp1
            exact PushPop.pop hp1 rfl rfl
      · by_cases h4 : isOperator c = true
        · obtain ⟨ho, hs⟩ := popPrecedence_core c s.st s.steps s.out
          obtain ⟨hsplit, hcnt⟩ := takeWhile_precedence_no_open (precedence_pos h4) s.st
          refine ⟨_, processChar_operator tbl s h4, ?_, ?_, fun hp => ?_⟩
          · simp only [h4, Bool.or_true, if_true]
            have hb : (c != '(') = true := by simpa using h2
            have hpend : pending (c :: (popPrecedence c s.steps s.out s.st).st)
                = c :: pending (popPrecedence c s.steps s.out s.st).st := by
              simp [pending, List.filter_cons, hb]
            rw [hpend, ho, hs, ← hsplit]
            simp only [List.append_assoc]
            refine List.Perm.append_left _ (List.Perm.append_left _ ?_)
            exact (List.perm_append_comm : List.Perm ([c] ++ _) (_ ++ [c]))
          · simp only [h2, h3, if_false, Nat.add_zero]
            rw [List.count_cons_of_ne (Ne.symm h2), hs, hcnt]
          · have hp1 := popPrecedence_pushPop c s.st s.steps s.out hp
            exact PushPop.push _ hp1 rfl (by rw [step_single_isPop]; rfl)
        · have h4f : isOperator c = false := by simpa using h4
          refine ⟨_, processChar_other s h1f h2 h3 h4f, ?_, ?_, fun hp => hp⟩
          · simp [h1f, h4f]
          · simp [h2, h3]

theorem scan_effect (tbl : QCharTables) (l : List Char) (s : GenState)
    (hm : matchedFrom (s.st.count '(') l) :
    ∃ s1, scan tbl l s = some s1 ∧
      List.Perm (s1.out ++ pending s1.st) ((s.out ++ pending s.st) ++ keptSymbols tbl l) ∧
      (PushPop s.steps s.st → PushPop s1.steps s1.st) := by
  induction l generalizing s with
  | nil => exact ⟨s, rfl, by simp [keptSymbols], id⟩
  | cons c cs ih =>
    have hc : c = ')' → 1 ≤ s.st.count '(' := by
      rintro rfl
      exact (matchedFrom_cons_close hm).1
    obtain ⟨s1, e1, p1, d1, b1⟩ := processChar_effect tbl s c hc
    have hm1 : matchedFrom (s1.st.count '(') cs := by
      by_cases h2 : c = '('
      · subst h2
        have : s1.st.count '(' = s.st.count '(' + 1 := by simpa using d1
        rw [this]; exact matchedFrom_cons_open hm
      · by_cases h3 : c = ')'
        · subst h3
          have : s1.st.count '(' = s.st.count '(' - 1 := by
            simp at d1; omega
          rw [this]; exact (matchedFrom_cons_close hm).2
        · have : s1.st.count '(' = s.st.count '(' := by simpa [h2, h3] using d1
          rw [this]; exact matchedFrom_cons_other h2 h3 hm
    obtain ⟨s2, e2, p2, b2⟩ := ih s1 hm1
    refine ⟨s2, by simp only [scan, e1, e2], ?_, fun hp => b2 (b1 hp)⟩
    rw [keptSymbols_cons, ← List.append_assoc]
    exact p2.trans (List.Perm.append_right _ p1)

/-- Every run on a text whose `')'` are all matched completes, with an empty
stack, balanced pushes and pops, and an output that is a rearrangement of the
operands and operators of the text. -/
theorem generateSteps_matched (tbl : QCharTables) {e : QString} (h : closeMatched e) :
    ∃ r, generateSteps tbl e = some r ∧ r.st = [] ∧ PushPop r.steps [] ∧
      List.Perm r.out (keptSymbols tbl e) := by
  have hm : matchedFrom ((⟨[initialStep], [], []⟩ : GenState).st.count '(') e := by
    intro n
    by_cases hn : n ≤ e.length
    · simpa using h n hn
    · have := h e.length (le_refl _)
      rw [List.take_length] at this
      rw [List.take_of_length_le (by omega)]
      simpa using this
  obtain ⟨s1, e1, p1, b1⟩ := scan_effect tbl e ⟨[initialStep], [], []⟩ hm
  obtain ⟨ho, hs⟩ := drain_core s1.st s1.steps s1.out
  refine ⟨drain s1.steps s1.out s1.st, ?_, hs, ?_, ?_⟩
  · unfold generateSteps
    rw [scan_filter_space, e1]
  · exact drain_pushPop _ _ _ (b1 (by unfold PushPop; decide))
  · rw [ho]
    simpa [pending] using p1

/-- C10: on every text in which each `')'` has a matching earlier `'('`, the run
completes with an empty stack and with as many push steps as pop steps in the
trace (every pushed symbol was popped), the published postfix is a rearrangement
of the operand and operator characters of the text, so each operator and each
operand occurs in it as often as in the text, and no parenthesis occurs in it. -/
theorem generateSteps_conservation (tbl : QCharTables) (e : QString) (h : closeMatched e) :
    ∃ r, generateSteps tbl e = some r ∧ r.st = [] ∧
      r.steps.countP SimStep.isPush = r.steps.countP SimStep.isPop ∧
      List.Perm r.out (e.filter (fun c => isLetterOrNumber tbl c || isOperator c)) ∧
      (∀ c, isLetterOrNumber tbl c = true ∨ isOperator c = true →
        r.out.count c = e.count c) ∧
      '(' ∉ r.out ∧ ')' ∉ r.out := by
  obtain ⟨r, hr, hst, hpp, hperm⟩ := generateSteps_matched tbl h
  refine ⟨r, hr, hst, by simpa [PushPop] using hpp, hperm, fun c hc => ?_, ?_, ?_⟩
  · rw [hperm.count_eq]
    unfold keptSymbols
    rw [List.count_filter]
    simpa using hc
  · intro hmem
    have := (List.mem_filter.mp (hperm.mem_iff.mp hmem)).2
    have h1 : isLetterOrNumber tbl '(' = false := rfl
    have h2 : isOperator '(' = false := by decide
    simp [h1, h2] at this
  · intro hmem
    have := (List.mem_filter.mp (hperm.mem_iff.mp hmem)).2
    have h1 : isLetterOrNumber tbl ')' = false := rfl
    have h2 : isOperator ')' = false := by decide
    simp [h1, h2] at this

theorem closeMatched_example : closeMatched "((A+B)*C-(D".toList := by decide

/-- Witness of C10: `"((A+B)*C-(D"` leaves two `'('` unmatched; its postfix
`"AB+C*D-"` holds each operand and operator once and no parenthesis. -/
theorem generateSteps_conservation_witness :
    closeMatched "((A+B)*C-(D".toList ∧
    (generateSteps asciiTables "((A+B)*C-(D".toList).map (fun r => r.out)
      = some "AB+C*D-".toList ∧
    ∃ r, generateSteps asciiTables "((A+B)*C-(D".toList = some r ∧ r.st = [] ∧
      r.steps.countP SimStep.isPush = r.steps.countP SimStep.isPop ∧
      List.Perm r.out ("((A+B)*C-(D".toList.filter
        (fun c => isLetterOrNumber asciiTables c || isOperator c)) ∧
      (∀ c, isLetterOrNumber asciiTables c = true ∨ isOperator c = true →
        r.out.count c = "((A+B)*C-(D".toList.count c) ∧
      '(' ∉ r.out ∧ ')' ∉ r.out :=
  ⟨closeMatched_example, rfl,
    generateSteps_conservation asciiTables "((A+B)*C-(D".toList closeMatched_example⟩

theorem matchedFrom_open_cons {d : Nat} {l : List Char} (h : matchedFrom (d + 1) l) :
    matchedFrom d ('(' :: l) := by
  intro n
  cases n with
  | zero => simp
  | succ m =>
    have := h m
    simp only [List.take_succ_cons]
    rw [List.count_cons_of_ne (by decide), List.count_cons_self]
    omega

theorem matchedFrom_close_cons {d : Nat} {l : List Char} (hd : 1 ≤ d)
    (h : matchedFrom (d - 1) l) : matchedFrom d (')' :: l) := by
  intro n
  cases n with
  | zero => simp
  | succ m =>
    have := h m
    simp only [List.take_succ_cons]
    rw [List.count_cons_self, List.count_cons_of_ne (by decide)]
    omega

theorem matchedFrom_other_cons {d : Nat} {c : Char} {l : List Char} (h1 : c ≠ '(')
    (h2 : c ≠ ')') (h : matchedFrom d l) : matchedFrom d (c :: l) := by
  intro n
  cases n with
  | zero => simp
  | succ m =>
    have := h m
    simp only [List.take_succ_cons]
    rw [List.count_cons_of_ne (Ne.symm h2), List.count_cons_of_ne (Ne.symm h1)]
    exact this

theorem dropWhile_open_eq_nil {st : QStack} (h : st.count '(' = 0) :
    st.dropWhile (fun t => t != '(') = [] := by
  rw [List.dropWhile_eq_nil_iff]
  intro x hx
  have hne : x ≠ '(' := by
    rintro rfl
    exact absurd (List.count_pos_iff.mpr hx) (by omega)
  simpa using hne

/-- A scan that completes has read a text whose `')'` all found a `'('`. -/
theorem scan_some_matched (tbl : QCharTables) (l : List Char) (s s1 : GenState)
    (h : scan tbl l s = some s1) : matchedFrom (s.st.count '(') l := by
  induction l generalizing s with
  | nil => intro n; simp
  | cons c cs ih =>
    have hc : c = ')' → 1 ≤ s.st.count '(' := by
      rintro rfl
      by_contra hlt
      have h0 : s.st.count '(' = 0 := by omega
      have hnil : (popUntilParen s.steps s.out s.st).st = [] := by
        rw [(popUntilParen_core s.st s.steps s.out).2]
        exact dropWhile_open_eq_nil h0
      rw [scan, processChar_close_none hnil] at h
      cases h
    obtain ⟨s2, e2, _, d2, _⟩ := processChar_effect tbl s c hc
    rw [scan, e2] at h
    have hm := ih s2 h
    by_cases h2 : c = '('
    · subst h2
      have : s2.st.count '(' = s.st.count '(' + 1 := by simpa using d2
      rw [this] at hm
      exact matchedFrom_open_cons hm
    · by_cases h3 : c = ')'
      · subst h3
        have hd := hc rfl
        have : s2.st.count '(' = s.st.count '(' - 1 := by
          simp at d2; omega
        rw [this] at hm
        exact matchedFrom_close_cons hd hm
      · have : s2.st.count '(' = s.st.count '(' := by simpa [h2, h3] using d2
        rw [this] at hm
        exact matchedFrom_other_cons h2 h3 hm

/-- The run completes exactly on the texts in which every `')'` has a matching
earlier `'('`. -/
theorem generateSteps_completes_iff (tbl : QCharTables) (e : QString) :
    (∃ r, generateSteps tbl e = some r) ↔ closeMatched e := by
  constructor
  · rintro ⟨r, hr⟩
    unfold generateSteps at hr
    rw [scan_filter_space] at hr
    split at hr
    · cases hr
    · next s hs =>
      intro n _
      simpa using scan_some_matched tbl e _ s hs n
  · intro h
    obtain ⟨r, hr, _⟩ := generateSteps_matched tbl h
    exact ⟨r, hr⟩

/-! ## The postfix of a well-formed expression -/

theorem popPrecedence_pending (c : Char) (pend st : QStack) (steps : List SimStep)
    (out : QString) (hp : ∀ x ∈ pend, precedence c ≤ precedence x)
    (htop : ∀ top rest, st = top :: rest → precedence top < precedence c) :
    (popPrecedence c steps out (pend ++ st)).out = out ++ pend ∧
    (popPrecedence c steps out (pend ++ st)).st = st := by
  induction pend generalizing steps out with
  | nil =>
    cases st with
    | nil => simp [popPrecedence]
    | cons top rest =>
      have := htop top rest rfl
      simp only [List.nil_append, popPrecedence]
      rw [if_neg (by omega)]
      simp
  | cons x xs ih =>
    rw [List.cons_append, popPrecedence, if_pos (hp x (by simp))]
    obtain ⟨a, b⟩ := ih (steps ++ [⟨[c], stackToString (xs ++ st), out ++ [x],
      "Popped due to precedence".toList⟩]) (out ++ [x]) (fun y hy => hp y (by simp [hy]))
    exact ⟨by rw [a]; simp, b⟩

theorem popUntilParen_pending (pend st : QStack) (steps : List SimStep) (out : QString)
    (hp : ∀ x ∈ pend, x ≠ '(') :
    (popUntilParen steps out (pend ++ '(' :: st)).out = out ++ pend ∧
    (popUntilParen steps out (pend ++ '(' :: st)).st = '(' :: st := by
  induction pend generalizing steps out with
  | nil => simp [popUntilParen]
  | cons x xs ih =>
    have hx : (x != '(') = true := by simpa using hp x (by simp)
    rw [List.cons_append, popUntilParen, if_pos hx]
    obtain ⟨a, b⟩ := ih (steps ++ [⟨")".toList, stackToString (xs ++ '(' :: st), out ++ [x],
      "Popping until '('".toList⟩]) (out ++ [x]) (fun y hy => hp y (by simp [hy]))
    exact ⟨by rw [a]; simp, b⟩

theorem pending_of_operators (pend : QStack) (hp : ∀ x ∈ pend, isOperator x = true) :
    pending pend = pend := by
  unfold pending
  rw [List.filter_eq_self]
  intro x hx
  simpa using isOperator_ne_open (hp x hx)

theorem Expr.level_pos {tbl : QCharTables} {t : Expr} (h : t.WellFormed tbl) :
    1 ≤ t.level := by
  cases t with
  | operand c => simp [Expr.level]
  | paren e => simp [Expr.level]
  | binary op l r => exact precedence_pos h.1

theorem scan_single {tbl : QCharTables} {c : Char} {s s1 : GenState}
    (h : processChar tbl s c = some s1) : scan tbl [c] s = some s1 := by
  simp only [scan, h]

theorem scan_cons {tbl : QCharTables} {c : Char} {s s1 : GenState} (l : List Char)
    (h : processChar tbl s c = some s1) : scan tbl (c :: l) s = scan tbl l s1 := by
  simp only [scan, h]

theorem scan_append_some {tbl : QCharTables} {l1 : List Char} {s s1 : GenState}
    (l2 : List Char) (h : scan tbl l1 s = some s1) :
    scan tbl (l1 ++ l2) s = scan tbl l2 s1 := by
  rw [scan_append, h]
  rfl

/-- Scanning the text of a well-formed tree from a state whose top of stack
binds less tightly than the tree: the scan completes, leaves the stack in place
under some pending operators of the tree, and the output followed by those
operators is the old output followed by the post-order of the tree. -/
theorem scan_expr (tbl : QCharTables) (t : Expr) (ht : t.WellFormed tbl) :
    ∀ s : GenState, (∀ top rest, s.st = top :: rest → precedence top < t.level) →
      ∃ s1 pend, scan tbl t.toInfix s = some s1 ∧ s1.st = pend ++ s.st ∧
        (∀ x ∈ pend, isOperator x = true ∧ t.level ≤ precedence x) ∧
        s1.out ++ pend = s.out ++ t.postorder := by
  induction t with
  | operand c =>
    intro s _
    refine ⟨_, [], scan_single (processChar_operand s ht), rfl, by simp, ?_⟩
    simp [Expr.postorder]
  | paren e ih =>
    intro s _
    have hopen := processChar_open tbl s
    obtain ⟨s1, pend, e1, st1, hp1, o1⟩ := ih ht
      ⟨s.steps ++ [⟨['('], stackToString ('(' :: s.st), s.out, "'(' pushed".toList⟩],
        s.out, '(' :: s.st⟩
      (by
        intro top rest h
        simp only [List.cons.injEq] at h
        rw [← h.1, precedence_open]
        exact Expr.level_pos ht)
    simp only at st1 o1
    obtain ⟨po, ps⟩ := popUntilParen_pending pend s.st s1.steps s1.out
      (fun x hx => isOperator_ne_open (hp1 x hx).1)
    rw [← st1] at po ps
    have hclose := processChar_close_some tbl ps
    refine ⟨_, [],
      (scan_cons _ hopen).trans ((scan_append_some _ e1).trans (scan_single hclose)),
      rfl, by simp, ?_⟩
    simp only [List.append_nil, Expr.postorder]
    rw [po, o1]
  | binary op l r ihl ihr =>
    intro s hs
    obtain ⟨hop, hl, hr, hll, hlr⟩ := ht
    obtain ⟨s1, pendl, e1, st1, hp1, o1⟩ := ihl hl s
      (fun top rest h => lt_of_lt_of_le (hs top rest h) hll)
    obtain ⟨po, ps⟩ := popPrecedence_pending op pendl s.st s1.steps s1.out
      (fun x hx => le_trans hll (hp1 x hx).2) hs
    rw [← st1] at po ps
    have hproc := processChar_operator tbl s1 hop
    obtain ⟨s3, pendr, e3, st3, hp3, o3⟩ := ihr hr
      ⟨(popPrecedence op s1.steps s1.out s1.st).steps
          ++ [⟨[op], stackToString (op :: (popPrecedence op s1.steps s1.out s1.st).st),
            (popPrecedence op s1.steps s1.out s1.st).out, "Operator pushed".toList⟩],
        (popPrecedence op s1.steps s1.out s1.st).out,
        op :: (popPrecedence op s1.steps s1.out s1.st).st⟩
      (by
        intro top rest h
        simp only [List.cons.injEq] at h
        rw [← h.1]
        exact hlr)
    simp only at st3 o3
    refine ⟨s3, pendr ++ [op],
      (scan_append_some _ e1).trans ((scan_cons _ hproc).trans e3), ?_, ?_, ?_⟩
    · rw [st3, ps]; simp
    · intro x hx
      rcases List.mem_append.mp hx with hx | hx
      · exact ⟨(hp3 x hx).1, le_trans (le_of_lt hlr) (hp3 x hx).2⟩
      · simp only [List.mem_singleton] at hx
        subst hx
        exact ⟨hop, le_refl _⟩
    · simp only [Expr.postorder]
      rw [← List.append_assoc, o3, po, o1]
      simp

theorem Expr.toInfix_example :
    (Expr.binary '+' (.operand 'A') (.binary '*' (.operand 'B') (.operand 'C'))).toInfix
      = "A+B*C".toList := rfl

/-- C1: for every parse tree that is well formed under the precedences
`{+,-} < {*,/} < {^}` with all operators associating to the left, `generateSteps`
on the infix text of the tree completes and publishes the post-order traversal
of the tree. -/
theorem generateSteps_postorder (tbl : QCharTables) (t : Expr) (h : t.WellFormed tbl) :
    ∃ r, generateSteps tbl t.toInfix = some r ∧ r.out = t.postorder := by
  obtain ⟨s1, pend, e1, st1, hp1, o1⟩ := scan_expr tbl t h ⟨[initialStep], [], []⟩
    (by intro top rest hst; cases hst)
  obtain ⟨ho, _⟩ := drain_core s1.st s1.steps s1.out
  refine ⟨drain s1.steps s1.out s1.st, ?_, ?_⟩
  · unfold generateSteps
    rw [scan_filter_space, e1]
  · simp only [List.append_nil] at st1
    rw [ho, st1, pending_of_operators pend (fun x hx => (hp1 x hx).1), o1]
    simp

/-- Witness of C1: the four expressions named by the specification, `A+B*C`,
`(A+B)*C`, `A*B+C` and `A^B^C`, with their parse trees. -/
theorem generateSteps_postorder_witness :
    (∃ r, generateSteps asciiTables "A+B*C".toList = some r ∧ r.out = "ABC*+".toList) ∧
    (∃ r, generateSteps asciiTables "(A+B)*C".toList = some r ∧ r.out = "AB+C*".toList) ∧
    (∃ r, generateSteps asciiTables "A*B+C".toList = some r ∧ r.out = "AB*C+".toList) ∧
    (∃ r, generateSteps asciiTables "A^B^C".toList = some r ∧ r.out = "AB^C^".toList) :=
  ⟨generateSteps_postorder asciiTables
      (.binary '+' (.operand 'A') (.binary '*' (.operand 'B') (.operand 'C')))
      ⟨rfl, rfl, ⟨rfl, rfl, rfl, by decide, by decide⟩, by decide, by decide⟩,
    generateSteps_postorder asciiTables
      (.binary '*' (.paren (.binary '+' (.operand 'A') (.operand 'B'))) (.operand 'C'))
      ⟨rfl, ⟨rfl, rfl, rfl, by decide, by decide⟩, rfl, by decide, by decide⟩,
    generateSteps_postorder asciiTables
      (.binary '+' (.binary '*' (.operand 'A') (.operand 'B')) (.operand 'C'))
      ⟨rfl, ⟨rfl, rfl, rfl, by decide, by decide⟩, rfl, by decide, by decide⟩,
    generateSteps_postorder asciiTables
      (.binary '^' (.binary '^' (.operand 'A') (.operand 'B')) (.operand 'C'))
      ⟨rfl, ⟨rfl, rfl, rfl, by decide, by decide⟩, rfl, by decide, by decide⟩⟩

/-! ## Single operands, whitespace and the precedence table -/

/-- C11: for a text made of one operand character `c` (a letter or a digit) the
run completes; the trace has exactly two steps, the initial step and one operand
step with current symbol `c`, stack `"(empty)"` and output `c`; the published
postfix is `c`. -/
theorem generateSteps_single_operand (tbl : QCharTables) (c : Char)
    (hc : isLetterOrNumber tbl c = true) :
    ∃ r, generateSteps tbl [c] = some r ∧ r.steps.length = 2 ∧
      r.steps = [initialStep,
        ⟨[c], "(empty)".toList, [c], "Operand → added to output".toList⟩] ∧
      r.out = [c] := by
  have hsp : (c != ' ') = true := by simpa using operand_ne_space tbl hc
  refine ⟨⟨[initialStep,
      ⟨[c], "(empty)".toList, [c], "Operand → added to output".toList⟩], [c], []⟩,
    ?_, rfl, rfl, rfl⟩
  unfold generateSteps
  rw [List.filter_cons, if_pos hsp]
  simp only [List.filter_nil, scan, processChar_operand _ hc]
  rfl

/-- Witness of C11: the text `"A"`. -/
theorem generateSteps_single_operand_witness :
    generateSteps asciiTables "A".toList
      = some ⟨[initialStep,
          ⟨"A".toList, "(empty)".toList, "A".toList, "Operand → added to output".toList⟩],
        "A".toList, []⟩ ∧
    ∃ r, generateSteps asciiTables ['A'] = some r ∧ r.steps.length = 2 ∧
      r.steps = [initialStep,
        ⟨['A'], "(empty)".toList, ['A'], "Operand → added to output".toList⟩] ∧
      r.out = ['A'] :=
  ⟨rfl, generateSteps_single_operand asciiTables 'A' rfl⟩

theorem isSpace_skipped {tbl : QCharTables} {c : Char} (s : GenState)
    (hdisj : ∀ c, isSpace tbl c = true → isLetterOrNumber tbl c = false)
    (hc : isSpace tbl c = true) : processChar tbl s c = some s := by
  refine processChar_other s (hdisj c hc) ?_ ?_ ?_
  · rintro rfl
    have hf : isSpace tbl '(' = false := rfl
    rw [hf] at hc; cases hc
  · rintro rfl
    have hf : isSpace tbl ')' = false := rfl
    rw [hf] at hc; cases hc
  · cases ho : isOperator c with
    | false => rfl
    | true =>
      exfalso
      rcases isOperator_cases ho with rfl | rfl | rfl | rfl | rfl
      · have hf : isSpace tbl '+' = false := rfl
        rw [hf] at hc; cases hc
      · have hf : isSpace tbl '-' = false := rfl
        rw [hf] at hc; cases hc
      · have hf : isSpace tbl '*' = false := rfl
        rw [hf] at hc; cases hc
      · have hf : isSpace tbl '/' = false := rfl
        rw [hf] at hc; cases hc
      · have hf : isSpace tbl '^' = false := rfl
        rw [hf] at hc; cases hc

theorem scan_filter_isSpace (tbl : QCharTables)
    (hdisj : ∀ c, isSpace tbl c = true → isLetterOrNumber tbl c = false)
    (l : List Char) (s : GenState) :
    scan tbl (l.filter (fun c => !isSpace tbl c)) s = scan tbl l s := by
  induction l generalizing s with
  | nil => rfl
  | cons c cs ih =>
    by_cases hc : isSpace tbl c = true
    · simp only [List.filter_cons, hc, Bool.not_true, Bool.false_eq_true, if_false, scan,
        isSpace_skipped s hdisj hc]
      exact ih s
    · have hb : (!isSpace tbl c) = true := by simpa using hc
      simp only [List.filter_cons, hb, if_true, scan]
      cases processChar tbl s c with
      | none => rfl
      | some s1 => exact ih s1

theorem generateSteps_eq_scan (tbl : QCharTables) (e : QString) :
    generateSteps tbl e
      = (scan tbl e ⟨[initialStep], [], []⟩).map (fun s => drain s.steps s.out s.st) := by
  unfold generateSteps
  rw [scan_filter_space]
  cases scan tbl e ⟨[initialStep], [], []⟩ <;> rfl

/-- Removing the blanks (U+0020) from a text never changes the result, whatever
the Unicode tables. -/
theorem generateSteps_ignores_blanks (tbl : QCharTables) (e : QString) :
    generateSteps tbl (e.filter (fun c => c != ' ')) = generateSteps tbl e := by
  rw [generateSteps_eq_scan, generateSteps_eq_scan, scan_filter_space]

/-- C12: when no whitespace character is classified as a letter or digit (as in
Unicode), `generateSteps` gives the same result, trace and postfix alike, on a
text and on the text with all its whitespace characters removed. -/
theorem generateSteps_ignores_whitespace (tbl : QCharTables)
    (hdisj : ∀ c, isSpace tbl c = true → isLetterOrNumber tbl c = false) (e : QString) :
    generateSteps tbl (e.filter (fun c => !isSpace tbl c)) = generateSteps tbl e := by
  rw [generateSteps_eq_scan, generateSteps_eq_scan, scan_filter_isSpace tbl hdisj]

theorem asciiTables_disjoint :
    ∀ c, isSpace asciiTables c = true → isLetterOrNumber asciiTables c = false := by
  intro c h
  simp only [isSpace, isLetterOrNumber, asciiTables, Bool.and_false, Bool.or_false,
    Bool.or_eq_true, Bool.and_eq_true, decide_eq_true_eq] at h ⊢
  simp only [Bool.or_eq_false_iff, Bool.and_eq_false_imp, decide_eq_true_eq,
    decide_eq_false_iff_not, Bool.or_eq_true, Bool.and_eq_true]
  omega

/-- Witness of C12: `" A +\tB "` with blanks and a tab gives the trace of `"A+B"`. -/
theorem generateSteps_ignores_whitespace_witness :
    (" A +\tB ".toList.filter (fun c => !isSpace asciiTables c)) = "A+B".toList ∧
    generateSteps asciiTables "A+B".toList ≠ none ∧
    generateSteps asciiTables (" A +\tB ".toList.filter (fun c => !isSpace asciiTables c))
      = generateSteps asciiTables " A +\tB ".toList :=
  ⟨by decide, by decide,
    generateSteps_ignores_whitespace asciiTables asciiTables_disjoint " A +\tB ".toList⟩

/-- C13: `precedence` is 1 on `+` and `-`, 2 on `*` and `/`, 3 on `^` and 0 on
every other character; `isOperator` holds exactly on those five characters,
which is exactly where `precedence` is positive. -/
theorem precedence_table (c : Char) :
    ((c = '+' ∨ c = '-') → precedence c = 1) ∧
    ((c = '*' ∨ c = '/') → precedence c = 2) ∧
    (c = '^' → precedence c = 3) ∧
    ((c ≠ '+' ∧ c ≠ '-' ∧ c ≠ '*' ∧ c ≠ '/' ∧ c ≠ '^') → precedence c = 0) ∧
    (isOperator c = true ↔ (c = '+' ∨ c = '-' ∨ c = '*' ∨ c = '/' ∨ c = '^')) ∧
    (isOperator c = true ↔ 0 < precedence c) := by
  refine ⟨?_, ?_, ?_, ?_, ?_, ?_⟩
  · rintro (rfl | rfl) <;> decide
  · rintro (rfl | rfl) <;> decide
  · rintro rfl; decide
  · rintro ⟨h1, h2, h3, h4, h5⟩
    simp [precedence, h1, h2, h3, h4, h5]
  · constructor
    · exact isOperator_cases
    · rintro (rfl | rfl | rfl | rfl | rfl) <;> decide
  · constructor
    · exact fun h => precedence_pos h
    · intro h
      by_contra hn
      have hf : isOperator c = false := by simpa using hn
      simp only [isOperator, Bool.or_eq_false_iff, beq_eq_false_iff_ne, ne_eq] at hf
      obtain ⟨⟨⟨⟨h1, h2⟩, h3⟩, h4⟩, h5⟩ := hf
      simp [precedence, h1, h2, h3, h4, h5] at h

theorem generateSteps_wellFormed (tbl : QCharTables) (t : Expr) (h : t.WellFormed tbl) :
    ∃ r, generateSteps tbl t.toInfix = some r ∧ r.out = t.postorder := by
  obtain ⟨s1, pend, e1, st1, hp1, o1⟩ := scan_expr tbl t h ⟨[initialStep], [], []⟩
    (by intro top rest hst; cases hst)
  obtain ⟨ho, _⟩ := drain_core s1.st s1.steps s1.out
  refine ⟨drain s1.steps s1.out s1.st, ?_, ?_⟩
  · rw [generateSteps_eq_scan, e1]; rfl
  · simp only [List.append_nil] at st1
    rw [ho, st1, pending_of_operators pend (fun x hx => (hp1 x hx).1), o1]
    simp

theorem precedence_le_three (c : Char) : precedence c ≤ 3 := by
  unfold precedence
  split
  · decide
  · split
    · decide
    · split <;> decide

/-- C14: for operands `a b c` and operators `op1 op2`, the text `a op1 b op2 c`
is converted to `a b op1 c op2` when `precedence op1 ≥ precedence op2` (ties pop)
and to `a b c op2 op1` when `precedence op1 < precedence op2`. -/
theorem generateSteps_two_operators (tbl : QCharTables) (a b c op1 op2 : Char)
    (ha : isLetterOrNumber tbl a = true) (hb : isLetterOrNumber tbl b = true)
    (hc : isLetterOrNumber tbl c = true) (h1 : isOperator op1 = true)
    (h2 : isOperator op2 = true) :
    (precedence op1 ≥ precedence op2 →
      ∃ r, generateSteps tbl [a, op1, b, op2, c] = some r ∧ r.out = [a, b, op1, c, op2]) ∧
    (precedence op1 < precedence op2 →
      ∃ r, generateSteps tbl [a, op1, b, op2, c] = some r ∧ r.out = [a, b, c, op2, op1]) := by
  have l1 := precedence_le_three op1
  have l2 := precedence_le_three op2
  constructor
  · intro hge
    exact generateSteps_wellFormed tbl
      (.binary op2 (.binary op1 (.operand a) (.operand b)) (.operand c))
      ⟨h2, ⟨h1, ha, hb, by simp only [Expr.level]; omega, by simp only [Expr.level]; omega⟩,
        hc, hge, by simp only [Expr.level]; omega⟩
  · intro hlt
    exact generateSteps_wellFormed tbl
      (.binary op1 (.operand a) (.binary op2 (.operand b) (.operand c)))
      ⟨h1, ha, ⟨h2, hb, hc, by simp only [Expr.level]; omega,
        by simp only [Expr.level]; omega⟩, by simp only [Expr.level]; omega, hlt⟩

/-- Witness of C14: `A^B^C` (a tie, `^` associates to the left) and `A+B*C`. -/
theorem generateSteps_two_operators_witness :
    (∃ r, generateSteps asciiTables "A^B^C".toList = some r ∧ r.out = "AB^C^".toList) ∧
    (∃ r, generateSteps asciiTables "A+B*C".toList = some r ∧ r.out = "ABC*+".toList) :=
  ⟨(generateSteps_two_operators asciiTables 'A' 'B' 'C' '^' '^' rfl rfl rfl rfl rfl).1
      (by decide),
    (generateSteps_two_operators asciiTables 'A' 'B' 'C' '+' '*' rfl rfl rfl rfl rfl).2
      (by decide)⟩

/-! ## The shape of the operator stack -/

theorem StackOk.tail {t : Char} {rest : QStack} (h : StackOk (t :: rest)) : StackOk rest :=
  h.2.2

theorem StackOk.drop {st : QStack} (h : StackOk st) (k : Nat) : StackOk (st.drop k) := by
  induction k generalizing st with
  | zero => simpa using h
  | succ n ih =>
    cases st with
    | nil => simpa using h
    | cons t rest => simpa using ih h.tail

theorem StackOk.dropWhile {st : QStack} (h : StackOk st) (p : Char → Bool) :
    StackOk (st.dropWhile p) := by
  induction st with
  | nil => exact h
  | cons t rest ih =>
    rw [List.dropWhile_cons]
    split
    · exact ih h.tail
    · exact h

theorem StackOk.mem {st : QStack} (h : StackOk st) :
    ∀ x ∈ st, x = '(' ∨ isOperator x = true := by
  induction st with
  | nil => intro x hx; cases hx
  | cons t rest ih =>
    intro x hx
    rcases List.mem_cons.mp hx with rfl | hx
    · exact h.1
    · exact ih h.tail x hx

theorem StackOk.not_operand (tbl : QCharTables) {st : QStack} (h : StackOk st) :
    ∀ x ∈ st, isLetterOrNumber tbl x = false := by
  intro x hx
  rcases h.mem x hx with rfl | ho
  · rfl
  · exact isOperator_not_operand tbl ho

theorem StackOk.adjacent {st : QStack} (h : StackOk st) (i : Nat) (t u : Char)
    (ht : st[i]? = some t) (hu : st[i + 1]? = some u) (hop : isOperator t = true) :
    precedence u < precedence t := by
  induction st generalizing i with
  | nil => simp at ht
  | cons a rest ih =>
    cases i with
    | zero =>
      simp only [List.getElem?_cons_zero, Option.some.injEq] at ht
      subst ht
      simp only [List.getElem?_cons_succ] at hu
      refine h.2.1 hop u ?_
      cases rest with
      | nil => simp at hu
      | cons b rest2 => simpa using hu
    | succ j =>
      simp only [List.getElem?_cons_succ] at ht hu
      exact ih h.tail j ht hu

theorem StackOk.run_le_precedence {t : Char} {rest : QStack} (h : StackOk (t :: rest))
    (ht : isOperator t = true) :
    ((t :: rest).takeWhile (fun x => x != '(')).length ≤ precedence t := by
  induction rest generalizing t with
  | nil =>
    have := precedence_pos ht
    have hb : (t != '(') = true := by simpa using isOperator_ne_open ht
    simp [List.takeWhile_cons, hb]
    exact this
  | cons u rest2 ih =>
    have hb : (t != '(') = true := by simpa using isOperator_ne_open ht
    have hlt := h.2.1 ht u rfl
    rw [List.takeWhile_cons, if_pos hb, List.length_cons]
    rcases h.tail.1 with rfl | hu
    · simp [List.takeWhile_cons]
      exact precedence_pos ht
    · have := ih h.tail hu
      omega

theorem StackOk.run_le_three {st : QStack} (h : StackOk st) :
    (st.takeWhile (fun x => x != '(')).length ≤ 3 := by
  cases st with
  | nil => simp
  | cons t rest =>
    rcases h.1 with rfl | ht
    · simp [List.takeWhile_cons]
    · exact le_trans (h.run_le_precedence ht) (precedence_le_three t)

theorem head?_dropWhile_not (p : Char → Bool) (st : QStack) (u : Char)
    (h : (st.dropWhile p).head? = some u) : p u = false := by
  induction st with
  | nil => simp at h
  | cons t rest ih =>
    rw [List.dropWhile_cons] at h
    split at h
    · exact ih h
    · next hp =>
      simp only [List.head?_cons, Option.some.injEq] at h
      subst h
      simpa using hp

theorem mem_of_mem_takeWhile {p : Char → Bool} {l : List Char} {x : Char}
    (h : x ∈ l.takeWhile p) : x ∈ l := by
  induction l with
  | nil => simp at h
  | cons t rest ih =>
    rw [List.takeWhile_cons] at h
    split at h
    · rcases List.mem_cons.mp h with rfl | h
      · simp
      · exact List.mem_cons_of_mem _ (ih h)
    · cases h

theorem filter_operand_of_stack (tbl : QCharTables) {st : QStack} (h : StackOk st)
    (l : List Char) (hl : ∀ x ∈ l, x ∈ st) : l.filter (isLetterOrNumber tbl) = [] := by
  rw [List.filter_eq_nil_iff]
  intro x hx
  simp [h.not_operand tbl x (hl x hx)]

/-- One iteration of the scan keeps the shape of the stack and adds to the
operands of the output exactly the symbol read when it is an operand. -/
theorem processChar_stackOk (tbl : QCharTables) {s s1 : GenState} {c : Char}
    (hst : StackOk s.st) (h : processChar tbl s c = some s1) :
    StackOk s1.st ∧
    s1.out.filter (isLetterOrNumber tbl)
      = s.out.filter (isLetterOrNumber tbl) ++ [c].filter (isLetterOrNumber tbl) := by
  by_cases h1 : isLetterOrNumber tbl c = true
  · rw [processChar_operand s h1] at h
    cases h
    exact ⟨hst, by simp⟩
  · have h1f : isLetterOrNumber tbl c = false := by simpa using h1
    by_cases h2 : c = '('
    · subst h2
      rw [processChar_open] at h
      cases h
      refine ⟨⟨Or.inl rfl, fun ho => absurd ho (by decide), hst⟩, ?_⟩
      simp [List.filter_cons, h1f]
    · by_cases h3 : c = ')'
      · subst h3
        obtain ⟨ho, hs⟩ := popUntilParen_core s.st s.steps s.out
        cases hp : (popUntilParen s.steps s.out s.st).st with
        | nil => rw [processChar_close_none hp] at h; cases h
        | cons top rest =>
          rw [processChar_close_some tbl hp] at h
          cases h
          have hok : StackOk (top :: rest) := by
            rw [← hp, hs]; exact hst.dropWhile _
          refine ⟨hok.tail, ?_⟩
          simp only [ho, List.filter_append, List.filter_cons, h1f, Bool.false_eq_true,
            if_false, List.filter_nil, List.append_nil]
          rw [filter_operand_of_stack tbl hst _ (fun x hx => mem_of_mem_takeWhile hx)]
          simp
      · by_cases h4 : isOperator c = true
        · obtain ⟨ho, hs⟩ := popPrecedence_core c s.st s.steps s.out
          rw [processChar_operator tbl s h4] at h
          cases h
          refine ⟨⟨Or.inr h4, fun _ u hu => ?_, ?_⟩, ?_⟩
          · rw [hs] at hu
            have := head?_dropWhile_not _ _ _ hu
            simpa using this
          · rw [hs]; exact hst.dropWhile _
          · simp only [ho, List.filter_append, List.filter_cons, h1f, Bool.false_eq_true,
              if_false, List.filter_nil, List.append_nil]
            rw [filter_operand_of_stack tbl hst _ (fun x hx => mem_of_mem_takeWhile hx)]
            simp
        · have h4f : isOperator c = false := by simpa using h4
          rw [processChar_other s h1f h2 h3 h4f] at h
          cases h
          exact ⟨hst, by simp [List.filter_cons, h1f]⟩

theorem scan_stackOk (tbl : QCharTables) (l : List Char) {s s1 : GenState}
    (hst : StackOk s.st) (h : scan tbl l s = some s1) :
    StackOk s1.st ∧
    s1.out.filter (isLetterOrNumber tbl)
      = s.out.filter (isLetterOrNumber tbl) ++ l.filter (isLetterOrNumber tbl) := by
  induction l generalizing s with
  | nil =>
    simp only [scan, Option.some.injEq] at h
    subst h
    exact ⟨hst, by simp⟩
  | cons c cs ih =>
    rw [scan] at h
    split at h
    · cases h
    · next s2 hp =>
      obtain ⟨ok2, o2⟩ := processChar_stackOk tbl hst hp
      obtain ⟨ok1, o1⟩ := ih ok2 h
      refine ⟨ok1, ?_⟩
      rw [o1, o2, List.append_assoc, ← List.filter_append]
      rfl

theorem scan_prefix_some (tbl : QCharTables) (pre post : List Char) {s s1 : GenState}
    (h : scan tbl (pre ++ post) s = some s1) : ∃ s0, scan tbl pre s = some s0 := by
  rw [scan_append] at h
  cases hp : scan tbl pre s with
  | none => rw [hp] at h; cases h
  | some s0 => exact ⟨s0, rfl⟩

theorem scan_of_closeMatched (tbl : QCharTables) {e : QString} (h : closeMatched e) :
    ∃ s, scan tbl (e.filter (fun c => c != ' ')) ⟨[initialStep], [], []⟩ = some s ∧
      scan tbl e ⟨[initialStep], [], []⟩ = some s := by
  obtain ⟨r, hr, _⟩ := generateSteps_matched tbl h
  rw [generateSteps_eq_scan] at hr
  cases hs : scan tbl e ⟨[initialStep], [], []⟩ with
  | none => rw [hs] at hr; cases hr
  | some s => exact ⟨s, by rw [scan_filter_space, hs], rfl⟩

theorem stackOk_initial : StackOk (⟨[initialStep], [], []⟩ : GenState).st := trivial

/-- C18: on every text in which each `')'` has a matching earlier `'('`, the run
completes and the operand characters of the published postfix, in their order,
are the operand characters of the text, in their order. -/
theorem generateSteps_operand_order (tbl : QCharTables) (e : QString)
    (h : closeMatched e) :
    ∃ r, generateSteps tbl e = some r ∧
      r.out.filter (isLetterOrNumber tbl) = e.filter (isLetterOrNumber tbl) := by
  obtain ⟨s, _, hs⟩ := scan_of_closeMatched tbl h
  obtain ⟨hok, hout⟩ := scan_stackOk tbl e stackOk_initial hs
  obtain ⟨ho, _⟩ := drain_core s.st s.steps s.out
  refine ⟨drain s.steps s.out s.st, by rw [generateSteps_eq_scan, hs]; rfl, ?_⟩
  rw [ho, List.filter_append, hout,
    filter_operand_of_stack tbl hok (pending s.st)
      (fun x hx => (List.mem_filter.mp hx).1)]
  simp

/-- Witness of C18: `"(A+B)*C-(D"` gives `"AB+C*D-"`, operands `A B C D` in order. -/
theorem generateSteps_operand_order_witness :
    closeMatched "(A+B)*C-(D".toList ∧
    (generateSteps asciiTables "(A+B)*C-(D".toList).map (fun r => r.out)
      = some "AB+C*D-".toList ∧
    ∃ r, generateSteps asciiTables "(A+B)*C-(D".toList = some r ∧
      r.out.filter (isLetterOrNumber asciiTables)
        = "(A+B)*C-(D".toList.filter (isLetterOrNumber asciiTables) :=
  ⟨by decide, rfl,
    generateSteps_operand_order asciiTables "(A+B)*C-(D".toList (by decide)⟩

/-- C19: on every text in which each `')'` has a matching earlier `'('`, after
every prefix `pre` of the scanned text the scan has a state, and its stack, as
well as every stack obtained from it by popping `k` symbols (the stacks met
inside the pop loops), holds operators and `'('` only (no `')'`, no operand);
an operator lying directly on another operator has the strictly higher
precedence; and at most 3 operators lie above the topmost `'('` (or above the
bottom when there is none). -/
theorem stack_precedence_invariant (tbl : QCharTables) (e : QString) (h : closeMatched e)
    (pre post : List Char) (hsplit : e.filter (fun c => c != ' ') = pre ++ post) :
    ∃ s, scan tbl pre ⟨[initialStep], [], []⟩ = some s ∧ ∀ k : Nat,
      (∀ x ∈ s.st.drop k, (x = '(' ∨ isOperator x = true) ∧ x ≠ ')' ∧
        isLetterOrNumber tbl x = false) ∧
      (∀ (i : Nat) (t u : Char), (s.st.drop k)[i]? = some t →
        (s.st.drop k)[i + 1]? = some u → isOperator t = true → isOperator u = true →
        precedence u < precedence t) ∧
      ((s.st.drop k).takeWhile (fun x => x != '(')).length ≤ 3 := by
  obtain ⟨s1, hs1, _⟩ := scan_of_closeMatched tbl h
  rw [hsplit] at hs1
  obtain ⟨s, hs⟩ := scan_prefix_some tbl pre post hs1
  obtain ⟨hok, _⟩ := scan_stackOk tbl pre stackOk_initial hs
  refine ⟨s, hs, fun k => ?_⟩
  have hk := hok.drop k
  refine ⟨fun x hx => ⟨hk.mem x hx, ?_, hk.not_operand tbl x hx⟩,
    fun i t u ht hu hop _ => hk.adjacent i t u ht hu hop, hk.run_le_three⟩
  rcases hk.mem x hx with rfl | ho
  · decide
  · exact isOperator_ne_close ho

/-- Witness of C19: after `"(A+B*C^"` the stack holds `^ * + (` from the top, three
operators of increasing precedence above the `'('`. -/
theorem stack_precedence_invariant_witness :
    (scan asciiTables "(A+B*C^".toList ⟨[initialStep], [], []⟩).map (fun s => s.st)
      = some ['^', '*', '+', '('] ∧
    ∃ s, scan asciiTables "(A+B*C^".toList ⟨[initialStep], [], []⟩ = some s ∧ ∀ k : Nat,
      (∀ x ∈ s.st.drop k, (x = '(' ∨ isOperator x = true) ∧ x ≠ ')' ∧
        isLetterOrNumber asciiTables x = false) ∧
      (∀ (i : Nat) (t u : Char), (s.st.drop k)[i]? = some t →
        (s.st.drop k)[i + 1]? = some u → isOperator t = true → isOperator u = true →
        precedence u < precedence t) ∧
      ((s.st.drop k).takeWhile (fun x => x != '(')).length ≤ 3 :=
  ⟨rfl, stack_precedence_invariant asciiTables "(A+B*C^D".toList (by decide)
    "(A+B*C^".toList "D".toList (by decide)⟩

/-! ## The number of steps -/

theorem popUntilParen_length (st : QStack) (steps : List SimStep) (out : QString) :
    (popUntilParen steps out st).steps.length + (popUntilParen steps out st).st.length
      = steps.length + st.length := by
  induction st generalizing steps out with
  | nil => rfl
  | cons t rest ih =>
    unfold popUntilParen
    split
    · rw [ih]; simp; omega
    · rfl

theorem popPrecedence_length (c : Char) (st : QStack) (steps : List SimStep)
    (out : QString) :
    (popPrecedence c steps out st).steps.length + (popPrecedence c steps out st).st.length
      = steps.length + st.length := by
  induction st generalizing steps out with
  | nil => rfl
  | cons t rest ih =>
    unfold popPrecedence
    split
    · rw [ih]; simp; omega
    · rfl

theorem drain_length (st : QStack) (steps : List SimStep) (out : QString) :
    (drain steps out st).steps.length = steps.length + st.length := by
  induction st generalizing steps out with
  | nil => rfl
  | cons t rest ih =>
    unfold drain
    rw [ih]; simp; omega

/-- One iteration of the scan adds to the steps and stack cells, taken together,
the weight of the symbol read. -/
theorem processChar_length (tbl : QCharTables) {s s1 : GenState} {c : Char}
    (h : processChar tbl s c = some s1) :
    s1.steps.length + s1.st.length = s.steps.length + s.st.length + stepWeight tbl c := by
  unfold stepWeight
  by_cases h1 : isLetterOrNumber tbl c = true
  · rw [processChar_operand s h1] at h
    cases h
    simp [h1]; omega
  · have h1f : isLetterOrNumber tbl c = false := by simpa using h1
    by_cases h2 : c = '('
    · subst h2
      rw [processChar_open] at h
      cases h
      simp [h1f]; omega
    · by_cases h3 : c = ')'
      · subst h3
        have hl := popUntilParen_length s.st s.steps s.out
        cases hp : (popUntilParen s.steps s.out s.st).st with
        | nil => rw [processChar_close_none hp] at h; cases h
        | cons top rest =>
          rw [processChar_close_some tbl hp] at h
          cases h
          rw [hp] at hl
          simp [h1f] at hl ⊢
          omega
      · by_cases h4 : isOperator c = true
        · have hl := popPrecedence_length c s.st s.steps s.out
          rw [processChar_operator tbl s h4] at h
          cases h
          simp [h1f, h2, h3, h4] at hl ⊢
          omega
        · have h4f : isOperator c = false := by simpa using h4
          rw [processChar_other s h1f h2 h3 h4f] at h
          cases h
          simp [h1f, h2, h3, h4f]

theorem stepWeight_sum (tbl : QCharTables) (l : List Char) :
    (l.map (stepWeight tbl)).sum
      = l.countP (isLetterOrNumber tbl) + 2 * l.countP isOperator + 2 * l.count '(' := by
  induction l with
  | nil => rfl
  | cons c cs ih =>
    rw [List.map_cons, List.sum_cons, ih, List.countP_cons, List.countP_cons,
      List.count_cons]
    unfold stepWeight
    by_cases h1 : isLetterOrNumber tbl c = true
    · have h2 : c ≠ '(' := operand_ne_open tbl h1
      have h4 : isOperator c = false := by
        cases ho : isOperator c with
        | false => rfl
        | true => rw [isOperator_not_operand tbl ho] at h1; cases h1
      simp [h1, h2, h4]; omega
    · have h1f : isLetterOrNumber tbl c = false := by simpa using h1
      by_cases h2 : c = '('
      · subst h2
        have h4 : isOperator '(' = false := by decide
        simp [h1f, h4]; omega
      · by_cases h3 : c = ')'
        · subst h3
          have h4 : isOperator ')' = false := by decide
          simp [h1f, h4]
        · by_cases h4 : isOperator c = true
          · simp [h1f, h2, h3, h4]; omega
          · have h4f : isOperator c = false := by simpa using h4
            simp [h1f, h2, h3, h4f]

theorem scan_length (tbl : QCharTables) (l : List Char) {s s1 : GenState}
    (h : scan tbl l s = some s1) :
    s1.steps.length + s1.st.length
      = s.steps.length + s.st.length + (l.map (stepWeight tbl)).sum := by
  induction l generalizing s with
  | nil =>
    simp only [scan, Option.some.injEq] at h
    subst h
    simp
  | cons c cs ih =>
    rw [scan] at h
    split at h
    · cases h
    · next s2 hp =>
      rw [ih h, processChar_length tbl hp, List.map_cons, List.sum_cons]
      omega

/-- C17: on every text in which each `')'` has a matching earlier `'('`, the run
completes and the trace has exactly
`1 + (operand characters) + 2 * (operator characters) + 2 * ('(' characters)`
steps. -/
theorem generateSteps_step_count (tbl : QCharTables) (e : QString) (h : closeMatched e) :
    ∃ r, generateSteps tbl e = some r ∧
      r.steps.length
        = 1 + e.countP (isLetterOrNumber tbl) + 2 * e.countP isOperator
          + 2 * e.count '(' := by
  obtain ⟨s, _, hs⟩ := scan_of_closeMatched tbl h
  refine ⟨drain s.steps s.out s.st, by rw [generateSteps_eq_scan, hs]; rfl, ?_⟩
  have hl := scan_length tbl e hs
  rw [stepWeight_sum] at hl
  rw [drain_length, hl]
  simp
  omega

/-- Witness of C17: `"(A+B)*C"` has 3 operands, 2 operators and 1 `'('`, and its
trace has 10 steps. -/
theorem generateSteps_step_count_witness :
    (generateSteps asciiTables "(A+B)*C".toList).map (fun r => r.steps.length) = some 10 ∧
    ∃ r, generateSteps asciiTables "(A+B)*C".toList = some r ∧
      r.steps.length
        = 1 + "(A+B)*C".toList.countP (isLetterOrNumber asciiTables)
          + 2 * "(A+B)*C".toList.countP isOperator + 2 * "(A+B)*C".toList.count '(' :=
  ⟨rfl, generateSteps_step_count asciiTables "(A+B)*C".toList (by decide)⟩

/-! ## The current symbol of the steps -/

theorem Appends_refl (P : SimStep → Prop) (steps : List SimStep) (out : QString)
    (st : QStack) : Appends P steps ⟨steps, out, st⟩ :=
  ⟨[], by simp, by simp⟩

theorem Appends_step {P : SimStep → Prop} {steps : List SimStep} {x : SimStep}
    {s1 : GenState} (hx : P x) (h : Appends P (steps ++ [x]) s1) : Appends P steps s1 := by
  obtain ⟨extra, h1, h2⟩ := h
  refine ⟨x :: extra, by simp [h1], fun y hy => ?_⟩
  rcases List.mem_cons.mp hy with rfl | hy
  · exact hx
  · exact h2 y hy

theorem Appends_trans {P : SimStep → Prop} {steps : List SimStep} {s1 s2 : GenState}
    (h1 : Appends P steps s1) (h2 : Appends P s1.steps s2) : Appends P steps s2 := by
  obtain ⟨e1, a1, b1⟩ := h1
  obtain ⟨e2, a2, b2⟩ := h2
  refine ⟨e1 ++ e2, by simp [a2, a1], fun y hy => ?_⟩
  rcases List.mem_append.mp hy with hy | hy
  · exact b1 y hy
  · exact b2 y hy

theorem Appends_mono {P Q : SimStep → Prop} {steps : List SimStep} {s1 : GenState}
    (hPQ : ∀ x, P x → Q x) (h : Appends P steps s1) : Appends Q steps s1 := by
  obtain ⟨extra, h1, h2⟩ := h
  exact ⟨extra, h1, fun x hx => hPQ x (h2 x hx)⟩

theorem popUntilParen_current (st : QStack) (steps : List SimStep) (out : QString) :
    Appends (fun x => x.current = [')']) steps (popUntilParen steps out st) := by
  induction st generalizing steps out with
  | nil => exact Appends_refl _ _ _ _
  | cons t rest ih =>
    unfold popUntilParen
    split
    · exact Appends_step rfl (ih _ _)
    · exact Appends_refl _ _ _ _

theorem popPrecedence_current (c : Char) (st : QStack) (steps : List SimStep)
    (out : QString) :
    Appends (fun x => x.current = [c]) steps (popPrecedence c steps out st) := by
  induction st generalizing steps out with
  | nil => exact Appends_refl _ _ _ _
  | cons t rest ih =>
    unfold popPrecedence
    split
    · exact Appends_step rfl (ih _ _)
    · exact Appends_refl _ _ _ _

theorem drain_current (st : QStack) (steps : List SimStep) (out : QString) :
    Appends (fun x => x.current = "END".toList) steps (drain steps out st) := by
  induction st generalizing steps out with
  | nil => exact Appends_refl _ _ _ _
  | cons t rest ih =>
    unfold drain
    exact Appends_step rfl (ih _ _)

/-- Every step recorded while a symbol is processed names that symbol. -/
theorem processChar_current (tbl : QCharTables) {s s1 : GenState} {c : Char}
    (h : processChar tbl s c = some s1) :
    Appends (fun x => x.current = [c]) s.steps s1 := by
  by_cases h1 : isLetterOrNumber tbl c = true
  · rw [processChar_operand s h1] at h
    cases h
    exact Appends_step rfl (Appends_refl _ _ _ _)
  · have h1f : isLetterOrNumber tbl c = false := by simpa using h1
    by_cases h2 : c = '('
    · subst h2
      rw [processChar_open] at h
      cases h
      exact Appends_step rfl (Appends_refl _ _ _ _)
    · by_cases h3 : c = ')'
      · subst h3
        have hc := popUntilParen_current s.st s.steps s.out
        cases hp : (popUntilParen s.steps s.out s.st).st with
        | nil => rw [processChar_close_none hp] at h; cases h
        | cons top rest =>
          rw [processChar_close_some tbl hp] at h
          cases h
          exact Appends_trans hc (Appends_step rfl (Appends_refl _ _ _ _))
      · by_cases h4 : isOperator c = true
        · have hc := popPrecedence_current c s.st s.steps s.out
          rw [processChar_operator tbl s h4] at h
          cases h
          exact Appends_trans hc (Appends_step rfl (Appends_refl _ _ _ _))
        · have h4f : isOperator c = false := by simpa using h4
          rw [processChar_other s h1f h2 h3 h4f] at h
          cases h
          exact Appends_refl _ _ _ _

theorem scan_current (tbl : QCharTables) (l : List Char) {s s1 : GenState}
    (h : scan tbl l s = some s1) :
    Appends (fun x => ∃ c ∈ l, x.current = [c]) s.steps s1 := by
  induction l generalizing s with
  | nil =>
    simp only [scan, Option.some.injEq] at h
    subst h
    exact Appends_refl _ _ _ _
  | cons c cs ih =>
    rw [scan] at h
    split at h
    · cases h
    · next s2 hp =>
      refine Appends_trans
        (Appends_mono (fun x hx => ⟨c, by simp, hx⟩) (processChar_current tbl hp))
        (Appends_mono (fun x hx => ?_) (ih h))
      obtain ⟨d, hd, hx⟩ := hx
      exact ⟨d, List.mem_cons_of_mem _ hd, hx⟩

/-- The trace of a completed run is the initial step followed by steps whose
current symbol is `"END"` or one symbol of the text. -/
theorem generateSteps_current {tbl : QCharTables} {e : QString} {r : GenState}
    (h : generateSteps tbl e = some r) :
    ∃ extra, r.steps = initialStep :: extra ∧
      ∀ x ∈ extra, x.current = "END".toList ∨ ∃ c ∈ e, x.current = [c] := by
  rw [generateSteps_eq_scan] at h
  cases hs : scan tbl e ⟨[initialStep], [], []⟩ with
  | none => rw [hs] at h; cases h
  | some s =>
    rw [hs] at h
    simp only [Option.map_some', Option.some.injEq] at h
    subst h
    have := Appends_trans
      (Appends_mono (Q := fun x => x.current = "END".toList ∨ ∃ c ∈ e, x.current = [c])
        (fun x hx => Or.inr hx) (scan_current tbl e hs))
      (Appends_mono (fun x hx => Or.inl hx) (drain_current s.st s.steps s.out))
    obtain ⟨extra, e1, e2⟩ := this
    exact ⟨extra, by simpa using e1, e2⟩

/-- C16, as the code has it: whenever `generateSteps` completes, the first step
has the current symbol `"-"` and every later step has as current symbol `"END"`
or one symbol of the text; a later step has the current symbol `"-"` only while
a `-` operator of the text is processed, so on a text without the character `-`
a step has the current symbol `"-"` exactly when it is the first step. -/
theorem generateSteps_current_symbol (tbl : QCharTables) (e : QString) (r : GenState)
    (h : generateSteps tbl e = some r) :
    (∃ s0, r.steps[0]? = some s0 ∧ s0.current = "-".toList) ∧
    (∀ (i : Nat) (x : SimStep), 1 ≤ i → r.steps[i]? = some x →
      x.current = "END".toList ∨ ∃ c ∈ e, x.current = [c]) ∧
    ('-' ∉ e → ∀ (i : Nat) (x : SimStep), r.steps[i]? = some x →
      (x.current = "-".toList ↔ i = 0)) := by
  obtain ⟨extra, h1, h2⟩ := generateSteps_current h
  have hlater : ∀ (i : Nat) (x : SimStep), 1 ≤ i → r.steps[i]? = some x →
      x.current = "END".toList ∨ ∃ c ∈ e, x.current = [c] := by
    intro i x hi hx
    obtain ⟨j, rfl⟩ : ∃ j, i = j + 1 := ⟨i - 1, by omega⟩
    rw [h1] at hx
    simp only [List.getElem?_cons_succ] at hx
    exact h2 x (List.getElem?_mem hx)
  refine ⟨⟨initialStep, by rw [h1]; simp, rfl⟩, hlater, fun hno i x hx => ?_⟩
  constructor
  · intro hcur
    by_contra hi
    rcases hlater i x (by omega) hx with hend | ⟨c, hc, hcc⟩
    · rw [hend] at hcur
      exact absurd hcur (by decide)
    · rw [hcc] at hcur
      have : c = '-' := by simpa using hcur
      exact hno (this ▸ hc)
  · rintro rfl
    rw [h1] at hx
    simp only [List.getElem?_cons_zero, Option.some.injEq] at hx
    subst hx
    rfl

/-- Witness of C16: the trace of `"A+B"`. -/
theorem generateSteps_current_symbol_witness :
    generateSteps asciiTables "A+B".toList ≠ none ∧ '-' ∉ "A+B".toList ∧
    ∀ r, generateSteps asciiTables "A+B".toList = some r →
      (∃ s0, r.steps[0]? = some s0 ∧ s0.current = "-".toList) ∧
      (∀ (i : Nat) (x : SimStep), 1 ≤ i → r.steps[i]? = some x →
        x.current = "END".toList ∨ ∃ c ∈ "A+B".toList, x.current = [c]) ∧
      ('-' ∉ "A+B".toList → ∀ (i : Nat) (x : SimStep), r.steps[i]? = some x →
        (x.current = "-".toList ↔ i = 0)) :=
  ⟨by decide, by decide,
    fun r h => generateSteps_current_symbol asciiTables "A+B".toList r h⟩

/-- Counterexample to C16 as stated: on the text `"A-B"` the step at index 2, the
push of the operator `-`, has the current symbol `"-"` although it is not the
first step. -/
theorem minus_step_has_sentinel_symbol :
    ∃ r x, generateSteps asciiTables "A-B".toList = some r ∧ r.steps[2]? = some x ∧
      x.current = "-".toList ∧ x.message = "Operator pushed".toList ∧ (2 : Nat) ≠ 0 :=
  ⟨_, _, rfl, rfl, rfl, rfl, by decide⟩

/-! ## Matching parentheses -/

theorem matchedFrom_nil (d : Nat) : matchedFrom d [] := by
  intro n; simp

theorem matchedFrom_mono {d d2 : Nat} {l : List Char} (hd : d ≤ d2)
    (h : matchedFrom d l) : matchedFrom d2 l := by
  intro n
  have := h n
  omega

theorem matchedFrom_prefix {d : Nat} {l1 l2 : List Char} (h : matchedFrom d (l1 ++ l2)) :
    matchedFrom d l1 := by
  intro n
  by_cases hn : n ≤ l1.length
  · have := h n
    rwa [List.take_append_of_le_length hn] at this
  · have := h l1.length
    rw [List.take_append_of_le_length (le_refl _), List.take_length] at this
    rwa [List.take_of_length_le (by omega)]

theorem matchedFrom_depth {d : Nat} {l : List Char} (h : matchedFrom d l) :
    l.count ')' ≤ l.count '(' + d := by
  have := h l.length
  rwa [List.take_length] at this

theorem matchedFrom_append {d d2 : Nat} {l1 l2 : List Char} (h1 : matchedFrom d l1)
    (hd : d2 + l1.count ')' = d + l1.count '(') (h2 : matchedFrom d2 l2) :
    matchedFrom d (l1 ++ l2) := by
  intro n
  rw [List.take_append_eq_append_take, List.count_append, List.count_append]
  by_cases hn : n ≤ l1.length
  · have := h1 n
    have h0 : n - l1.length = 0 := by omega
    rw [h0]
    simp
    exact this
  · have := h2 (n - l1.length)
    rw [List.take_of_length_le (by omega)]
    omega

theorem closeMatched_iff_matchedFrom (e : QString) : closeMatched e ↔ matchedFrom 0 e := by
  constructor
  · intro h n
    by_cases hn : n ≤ e.length
    · simpa using h n hn
    · have := h e.length (le_refl _)
      rw [List.take_length] at this
      rw [List.take_of_length_le (by omega)]
      simpa using this
  · intro h n _
    simpa using h n

/-- In a text whose `')'` are all matched and which has a `'('` still open, the
innermost open `'('` splits the text: what follows it is balanced. -/
theorem exists_matching_open (n : Nat) :
    ∀ pre : List Char, pre.length ≤ n → matchedFrom 0 pre →
      pre.count ')' < pre.count '(' →
      ∃ pre1 mid, pre = pre1 ++ '(' :: mid ∧ matchedFrom 0 mid ∧
        mid.count '(' = mid.count ')' := by
  induction n with
  | zero =>
    intro pre hlen _ hlt
    have : pre = [] := List.length_eq_zero.mp (by omega)
    subst this
    simp at hlt
  | succ k ih =>
    intro pre hlen hm hlt
    rcases List.eq_nil_or_concat pre with rfl | ⟨q, x, hpre⟩
    · simp at hlt
    · rw [List.concat_eq_append] at hpre
      subst hpre
      have hq : matchedFrom 0 q := matchedFrom_prefix hm
      have hqlen : q.length ≤ k := by simp at hlen; omega
      by_cases hx1 : x = '('
      · subst hx1
        exact ⟨q, [], rfl, matchedFrom_nil 0, rfl⟩
      · by_cases hx2 : x = ')'
        · subst hx2
          have hc1 : (q ++ [')']).count ')' = q.count ')' + 1 := by
            simp [List.count_append]
          have hc2 : (q ++ [')']).count '(' = q.count '(' := by
            simp [List.count_append, List.count_cons]
          rw [hc1, hc2] at hlt
          obtain ⟨p1, m1, rfl, hm1, hb1⟩ := ih q hqlen hq (by omega)
          have hp1 : matchedFrom 0 p1 := matchedFrom_prefix hq
          have hc3 : (p1 ++ '(' :: m1).count ')' = p1.count ')' + m1.count ')' := by
            simp [List.count_append, List.count_cons]
          have hc4 : (p1 ++ '(' :: m1).count '(' = p1.count '(' + (m1.count '(' + 1) := by
            simp [List.count_append, List.count_cons]
          rw [hc3, hc4] at hlt
          have hp1len : p1.length ≤ k := by simp at hqlen; omega
          obtain ⟨p2, m2, rfl, hm2, hb2⟩ := ih p1 hp1len hp1 (by omega)
          refine ⟨p2, m2 ++ '(' :: (m1 ++ [')']), by simp, ?_, ?_⟩
          · have hA : matchedFrom 1 m1 := matchedFrom_mono (Nat.zero_le 1) hm1
            have hB : matchedFrom 1 [')'] :=
              matchedFrom_close_cons (le_refl 1) (matchedFrom_nil 0)
            have hC : matchedFrom 1 (m1 ++ [')']) := matchedFrom_append hA (by omega) hB
            have hD : matchedFrom 0 ('(' :: (m1 ++ [')'])) := matchedFrom_open_cons hC
            exact matchedFrom_append hm2 (by omega) hD
          · simp [List.count_append, List.count_cons]
            omega
        · have hc1 : (q ++ [x]).count ')' = q.count ')' := by
            simp [List.count_append, List.count_cons, hx2]
          have hc2 : (q ++ [x]).count '(' = q.count '(' := by
            simp [List.count_append, List.count_cons, hx1]
          rw [hc1, hc2] at hlt
          obtain ⟨p1, m1, rfl, hm1, hb1⟩ := ih q hqlen hq hlt
          refine ⟨p1, m1 ++ [x], by simp, ?_, ?_⟩
          · have hB : matchedFrom 0 [x] :=
              matchedFrom_other_cons hx1 hx2 (matchedFrom_nil 0)
            exact matchedFrom_append hm1 (by omega) hB
          · simp [List.count_append, List.count_cons, hx1, hx2]
            exact hb1

theorem dropWhile_append_open (p : Char → Bool) (hp : p '(' = false) (a base : QStack) :
    (a ++ '(' :: base).dropWhile p = a.dropWhile p ++ '(' :: base := by
  induction a with
  | nil => simp [List.dropWhile_cons, hp]
  | cons t rest ih =>
    rw [List.cons_append, List.dropWhile_cons, List.dropWhile_cons]
    split
    · exact ih
    · rfl

/-- One iteration of the scan above a `'('` that stays on the stack: when the
symbol read is not a `')'` closing that very `'('`, the iteration completes and
leaves the `'('` and everything under it in place. -/
theorem processChar_above (tbl : QCharTables) (s : GenState) (c : Char) (a base : QStack)
    (hst : s.st = a ++ '(' :: base) (hc : c = ')' → 1 ≤ a.count '(') :
    ∃ s1 a1, processChar tbl s c = some s1 ∧ s1.st = a1 ++ '(' :: base ∧
      a1.count '(' + (if c = ')' then 1 else 0)
        = a.count '(' + (if c = '(' then 1 else 0) := by
  by_cases h1 : isLetterOrNumber tbl c = true
  · refine ⟨_, a, processChar_operand s h1, hst, ?_⟩
    simp [operand_ne_open tbl h1, operand_ne_close tbl h1]
  · have h1f : isLetterOrNumber tbl c = false := by simpa using h1
    by_cases h2 : c = '('
    · subst h2
      exact ⟨_, '(' :: a, processChar_open tbl s, by simp [hst], by simp⟩
    · by_cases h3 : c = ')'
      · subst h3
        have hcount := hc rfl
        have hs := (popUntilParen_core s.st s.steps s.out).2
        have hdw : s.st.dropWhile (fun t => t != '(')
            = a.dropWhile (fun t => t != '(') ++ '(' :: base := by
          rw [hst]; exact dropWhile_append_open _ (by decide) a base
        rw [hdw] at hs
        cases hd : a.dropWhile (fun t => t != '(') with
        | nil =>
          have := count_open_dropWhile a
          rw [hd] at this
          simp at this
          omega
        | cons top a2 =>
          have htop : top = '(' := by
            have := head?_dropWhile_not (fun t => t != '(') a top (by rw [hd]; rfl)
            simpa using this
          subst htop
          have hcnt := count_open_dropWhile a
          rw [hd] at hcnt hs
          refine ⟨_, a2, processChar_close_some tbl hs, rfl, ?_⟩
          simp at hcnt ⊢
          omega
      · by_cases h4 : isOperator c = true
        · have hs := (popPrecedence_core c s.st s.steps s.out).2
          have hp : decide (precedence '(' ≥ precedence c) = false := by
            have := precedence_pos h4
            simp [precedence_open]
            omega
          have hdw : s.st.dropWhile (fun t => decide (precedence t ≥ precedence c))
              = a.dropWhile (fun t => decide (precedence t ≥ precedence c))
                ++ '(' :: base := by
            rw [hst]; exact dropWhile_append_open _ hp a base
          rw [hdw] at hs
          refine ⟨_, c :: a.dropWhile (fun t => decide (precedence t ≥ precedence c)),
            processChar_operator tbl s h4, by simp [hs], ?_⟩
          rw [List.count_cons_of_ne (Ne.symm h2),
            (takeWhile_precedence_no_open (precedence_pos h4) a).2]
          simp [h2, h3]
        · have h4f : isOperator c = false := by simpa using h4
          exact ⟨_, a, processChar_other s h1f h2 h3 h4f, hst, by simp [h2, h3]⟩

/-- Scanning a text whose `')'` are all matched inside it, above a `'('` of the
stack: the scan completes and that `'('`, with everything under it, stays. -/
theorem scan_above (tbl : QCharTables) (base : QStack) (l : List Char) :
    ∀ (s : GenState) (a : QStack), s.st = a ++ '(' :: base →
      matchedFrom (a.count '(') l →
      ∃ s1 a1, scan tbl l s = some s1 ∧ s1.st = a1 ++ '(' :: base ∧
        a1.count '(' + l.count ')' = a.count '(' + l.count '(' := by
  induction l with
  | nil => intro s a hst _; exact ⟨s, a, rfl, hst, rfl⟩
  | cons c cs ih =>
    intro s a hst hm
    have hc : c = ')' → 1 ≤ a.count '(' := by
      rintro rfl
      exact (matchedFrom_cons_close hm).1
    obtain ⟨s1, a1, e1, st1, d1⟩ := processChar_above tbl s c a base hst hc
    have hm1 : matchedFrom (a1.count '(') cs := by
      by_cases h2 : c = '('
      · subst h2
        have : a1.count '(' = a.count '(' + 1 := by simpa using d1
        rw [this]; exact matchedFrom_cons_open hm
      · by_cases h3 : c = ')'
        · subst h3
          have : a1.count '(' = a.count '(' - 1 := by
            simp at d1; omega
          rw [this]; exact (matchedFrom_cons_close hm).2
        · have : a1.count '(' = a.count '(' := by simpa [h2, h3] using d1
          rw [this]; exact matchedFrom_cons_other h2 h3 hm
    obtain ⟨s2, a2, e2, st2, d2⟩ := ih s1 a1 st1 hm1
    refine ⟨s2, a2, (scan_cons _ e1).trans e2, st2, ?_⟩
    rw [List.count_cons, List.count_cons]
    by_cases h2 : c = '('
    · subst h2
      simp at d1 ⊢
      omega
    · by_cases h3 : c = ')'
      · subst h3
        simp at d1 ⊢
        omega
      · simp [h2, h3] at d1 ⊢
        omega

/-- C15: on every text in which each `')'` has a matching earlier `'('`, take any
`')'` of the scanned text, `pre` being what precedes it. The scan reaches that
`')'` in a state `s`, and after the "Popping until '('" loop the stack is
`'(' :: rest`: the unguarded pop meets a non-empty stack and removes a `'('`.
That `'('` is the matching one: `pre` is `pre1 ++ '(' :: mid` with `mid`
balanced, and `rest` is the stack the scan had when it read that `'('`. -/
theorem unguarded_pop_removes_matching_open (tbl : QCharTables) (e : QString)
    (h : closeMatched e) (pre post : List Char)
    (hsplit : e.filter (fun c => c != ' ') = pre ++ ')' :: post) :
    ∃ s rest, scan tbl pre ⟨[initialStep], [], []⟩ = some s ∧
      (popUntilParen s.steps s.out s.st).st = '(' :: rest ∧
      ∃ pre1 mid s0, pre = pre1 ++ '(' :: mid ∧ closeMatched mid ∧
        mid.count '(' = mid.count ')' ∧
        scan tbl pre1 ⟨[initialStep], [], []⟩ = some s0 ∧ rest = s0.st := by
  obtain ⟨sf, hsf, _⟩ := scan_of_closeMatched tbl h
  rw [hsplit] at hsf
  have hmf := scan_some_matched tbl _ _ _ hsf
  have hmf2 : matchedFrom 0 ((pre ++ [')']) ++ post) := by simpa using hmf
  have hm1 : matchedFrom 0 (pre ++ [')']) := matchedFrom_prefix hmf2
  have hmpre : matchedFrom 0 pre := matchedFrom_prefix hm1
  have hdepth := matchedFrom_depth hm1
  have hlt : pre.count ')' < pre.count '(' := by
    simp [List.count_append, List.count_cons] at hdepth
    omega
  obtain ⟨pre1, mid, rfl, hmid, hbal⟩ := exists_matching_open pre.length pre (le_refl _)
    hmpre hlt
  obtain ⟨s0, hs0⟩ := scan_prefix_some tbl pre1 ('(' :: mid ++ ')' :: post)
    (by simpa using hsf)
  have hopen := processChar_open tbl s0
  obtain ⟨s, a1, hs, hst, hcnt⟩ := scan_above tbl s0.st mid
    ⟨s0.steps ++ [⟨['('], stackToString ('(' :: s0.st), s0.out, "'(' pushed".toList⟩],
      s0.out, '(' :: s0.st⟩ [] rfl (by simpa using hmid)
  have ha1 : a1.count '(' = 0 := by
    simp at hcnt
    omega
  have hscan : scan tbl (pre1 ++ '(' :: mid) ⟨[initialStep], [], []⟩ = some s :=
    (scan_append_some _ hs0).trans ((scan_cons _ hopen).trans hs)
  refine ⟨s, s0.st, hscan, ?_, pre1, mid, s0, rfl,
    (closeMatched_iff_matchedFrom mid).mpr hmid, hbal, hs0, rfl⟩
  rw [(popUntilParen_core s.st s.steps s.out).2, hst,
    dropWhile_append_open _ (by decide), dropWhile_open_eq_nil ha1]
  rfl

/-- Witness of C15: the second `')'` of `"((A+B)*C)-D"` removes the first `'('`. -/
theorem unguarded_pop_removes_matching_open_witness :
    closeMatched "((A+B)*C)-D".toList ∧
    "((A+B)*C)-D".toList.filter (fun c => c != ' ')
      = "((A+B)*C".toList ++ ')' :: "-D".toList ∧
    ∃ s rest, scan asciiTables "((A+B)*C".toList ⟨[initialStep], [], []⟩ = some s ∧
      (popUntilParen s.steps s.out s.st).st = '(' :: rest ∧
      ∃ pre1 mid s0, "((A+B)*C".toList = pre1 ++ '(' :: mid ∧ closeMatched mid ∧
        mid.count '(' = mid.count ')' ∧
        scan asciiTables pre1 ⟨[initialStep], [], []⟩ = some s0 ∧ rest = s0.st :=
  ⟨by decide, by decide,
    unguarded_pop_removes_matching_open asciiTables "((A+B)*C)-D".toList (by decide)
      "((A+B)*C".toList "-D".toList (by decide)⟩

end Sim
